import Mathlib

/-!
Shallow embedding of the merkletreejs fork (eager builder, proof generation and
verification in `src/index.ts`; incremental builder `MerkleFromLeaves` in the
second source file), together with theorems settling the specification's
claims against it.

Buffers are byte lists (`Buf`).  The caller-supplied hash function is an
arbitrary `Buf → Buf` parameter; concrete evaluations use a small executable
`toyHash`.  JavaScript behaviour that throws (`Buffer.compare` against
`undefined`, `bufferify(null)` touching `null.words`, pushing onto an
`undefined` array slot) is modelled with `Except Unit`.
-/

/-- Byte sequence: the contents of a node `Buffer`. -/
abbrev Buf := List Nat

/-- `buffer-reverse`: byte reversal of a buffer (returns a fresh buffer). -/
def bufReverse (b : Buf) : Buf := b.reverse

/-- `Buffer.compare`: lexicographic byte comparison; a strict prefix compares
smaller. -/
def bufCompare : Buf → Buf → Ordering
  | [], [] => .eq
  | [], _ :: _ => .lt
  | _ :: _, [] => .gt
  | a :: as, b :: bs => if a < b then .lt else if b < a then .gt else bufCompare as bs

theorem bufCompare_eq_iff : ∀ a b : Buf, bufCompare a b = .eq ↔ a = b
  | [], [] => by simp [bufCompare]
  | [], _ :: _ => by simp [bufCompare]
  | _ :: _, [] => by simp [bufCompare]
  | a :: as, b :: bs => by
    by_cases hab : a < b
    · simp [bufCompare, hab]
      omega
    · by_cases hba : b < a
      · simp [bufCompare, hab, hba]
        omega
      · have : a = b := by omega
        subst this
        simp [bufCompare, bufCompare_eq_iff as bs]

theorem bufCompare_self (a : Buf) : bufCompare a a = .eq :=
  (bufCompare_eq_iff a a).mpr rfl

/-- `Buffer.concat(combined)` after the optional
`combined.sort(Buffer.compare)`: a JavaScript two-element sort swaps exactly
when the comparator is positive. -/
def combineData (sortPairs : Bool) (a b : Buf) : Buf :=
  if sortPairs then (if bufCompare a b = .gt then b ++ a else a ++ b) else a ++ b

/-- Digest of one pair of sibling nodes in `createHashes`: concatenate
(optionally sorted, reversed first under the Bitcoin flag), hash, and under the
Bitcoin flag hash a second time and reverse. -/
def pairHash (hash : Buf → Buf) (btc sp : Bool) (a b : Buf) : Buf :=
  if btc then bufReverse (hash (hash (combineData sp (bufReverse a) (bufReverse b))))
  else hash (combineData sp a b)

/-- The Bitcoin branch for a lone trailing node in `createHashes`
(src/index.ts lines 144-151): duplicate, reverse both copies, concatenate,
hash, hash again, reverse. -/
def btcOddHash (hash : Buf → Buf) (a : Buf) : Buf :=
  bufReverse (hash (hash (bufReverse a ++ bufReverse a)))

/-- One iteration of the `while` loop of `MerkleTree.createHashes` over a layer
of plain buffers: pair consecutive nodes; a lone trailing node (odd layer) is
self-paired with double hash and reversal under `isBitcoinTree`, self-paired
with a single hash under `duplicateOdd`, and promoted unchanged otherwise. -/
def createHashesStep (hash : Buf → Buf) (btc sp dup : Bool) : List Buf → List Buf
  | [] => []
  | [a] =>
    if btc then [btcOddHash hash a]
    else if dup then [pairHash hash false sp a a]
    else [a]
  | a :: b :: rest => pairHash hash btc sp a b :: createHashesStep hash btc sp dup rest

theorem createHashesStep_length (hash : Buf → Buf) (btc sp dup : Bool) :
    ∀ nodes : List Buf,
      (createHashesStep hash btc sp dup nodes).length = (nodes.length + 1) / 2
  | [] => by simp [createHashesStep]
  | [a] => by
    by_cases hb : btc <;> by_cases hd : dup <;> simp [createHashesStep, hb, hd]
  | a :: b :: rest => by
    simp [createHashesStep, createHashesStep_length hash btc sp dup rest]
    omega

/-- The `while (nodes.length > 1)` loop of `createHashes`: `gas` is an
explicit bound on the remaining iterations, present only to keep the recursion
structural; every layer halves (rounding up), so the starting length always
suffices and the `gas = 0` base case is unreachable from
`createHashesLayers`. -/
def createHashesGo (hash : Buf → Buf) (btc sp dup : Bool) :
    Nat → List Buf → List (List Buf)
  | 0, nodes => [nodes]
  | gas + 1, nodes =>
    if nodes.length ≤ 1 then [nodes]
    else nodes :: createHashesGo hash btc sp dup gas (createHashesStep hash btc sp dup nodes)

/-- All layers built by `createHashes`, leaves first, root layer last: the
loop pushes one derived layer per iteration until one node remains. -/
def createHashesLayers (hash : Buf → Buf) (btc sp dup : Bool) (nodes : List Buf) :
    List (List Buf) :=
  createHashesGo hash btc sp dup nodes.length nodes

namespace MerkleTree

/-- The eager constructor's policy flags (`CreateOptions`). -/
structure MTOptions where
  isBitcoinTree : Bool := false
  hashLeaves : Bool := false
  sortLeaves : Bool := false
  sortPairs : Bool := false
  sortAll : Bool := false
  duplicateOdd : Bool := false
deriving DecidableEq, Repr

/-- `sort` forces `sortLeaves` (constructor lines 96-100). -/
def MTOptions.effSortLeaves (o : MTOptions) : Bool := o.sortLeaves || o.sortAll

/-- `sort` forces `sortPairs` (constructor lines 96-100). -/
def MTOptions.effSortPairs (o : MTOptions) : Bool := o.sortPairs || o.sortAll

/-- Comparator order used by `this.leaves.sort(Buffer.compare)`. -/
def bufLe (a b : Buf) : Bool := bufCompare a b ≠ .gt

/-- Leaf preprocessing for a plain (non-`createLeaves`) tree: optional
pre-hash, then optional stable sort by `Buffer.compare`. Leaves are already
buffers, so `bufferify` is the identity on them. -/
def leavesOf (hash : Buf → Buf) (o : MTOptions) (lv : List Buf) : List Buf :=
  let l1 := if o.hashLeaves then lv.map hash else lv
  if o.effSortLeaves then l1.mergeSort bufLe else l1

/-- All layers of an eagerly built plain tree. -/
def layers (hash : Buf → Buf) (o : MTOptions) (lv : List Buf) : List (List Buf) :=
  createHashesLayers hash o.isBitcoinTree o.effSortPairs o.duplicateOdd
    (leavesOf hash o lv)

/-- `getRoot`: first node of the last layer, or an empty buffer when the last
layer has none (src/index.ts line 237). -/
def getRoot (hash : Buf → Buf) (o : MTOptions) (lv : List Buf) : Buf :=
  ((layers hash o lv).getLastD []).headD []

end MerkleTree

/-- A tiny executable hash used for concrete witnesses and counterexamples:
8-bit length then a running byte sum seeded by 7. -/
def toyHash (b : Buf) : Buf := [b.length % 256, (b.sum + 7) % 256]

/-- Number of `hashAlgo` invocations made by one `createHashes` layer
iteration: two per pair under the Bitcoin flag (double hashing), otherwise one
per pair; the lone trailing node of an odd layer costs two (Bitcoin), one
(`duplicateOdd`), or none (promotion). -/
def createHashesStepCalls (btc dup : Bool) : List Buf → Nat
  | [] => 0
  | [_] => if btc then 2 else if dup then 1 else 0
  | _ :: _ :: rest => (if btc then 2 else 1) + createHashesStepCalls btc dup rest

theorem getLast?_cons_ne_nil {α : Type} (a : α) {l : List α} (h : l ≠ []) :
    (a :: l).getLast? = l.getLast? := by
  cases l with
  | nil => exact absurd rfl h
  | cons b bs => exact List.getLast?_cons_cons

/-- The last element produced by a `createHashes` iteration over an odd-length
layer is the trailing node's image under the active odd-node policy. -/
theorem createHashesStep_getLast_odd (hash : Buf → Buf) (btc sp dup : Bool) :
    ∀ row : List Buf, row.length % 2 = 1 →
      (createHashesStep hash btc sp dup row).getLast? =
        some (if btc then btcOddHash hash (row.getLastD [])
          else if dup then pairHash hash false sp (row.getLastD []) (row.getLastD [])
          else row.getLastD [])
  | [], h => by simp at h
  | [a], _ => by
    by_cases hb : btc <;> by_cases hd : dup <;> simp [createHashesStep, hb, hd]
  | a :: b :: rest, h => by
    have hodd : rest.length % 2 = 1 := by simp at h; omega
    have hne : rest ≠ [] := by
      intro hnil
      rw [hnil] at hodd
      simp at hodd
    have hstep : createHashesStep hash btc sp dup rest ≠ [] := by
      intro hnil
      have := createHashesStep_length hash btc sp dup rest
      rw [hnil] at this
      have : rest.length = 0 := by simp at this; omega
      exact hne (List.eq_nil_of_length_eq_zero this)
    rw [show createHashesStep hash btc sp dup (a :: b :: rest)
        = pairHash hash btc sp a b :: createHashesStep hash btc sp dup rest from rfl,
      getLast?_cons_ne_nil _ hstep,
      createHashesStep_getLast_odd hash btc sp dup rest hodd,
      show (a :: b :: rest).getLastD [] = rest.getLastD [] by
        cases rest with
        | nil => exact absurd rfl hne
        | cons c cs => simp]

/-- Relation between one layer and the next: the derived layer has
⌈previous/2⌉ nodes, never more than the previous layer, and strictly fewer
whenever the previous layer had more than one. -/
def layerRel (x y : List Buf) : Prop :=
  y.length = (x.length + 1) / 2 ∧ y.length ≤ x.length ∧
    (1 < x.length → y.length < x.length)

instance : DecidableRel layerRel := fun x y => by
  unfold layerRel
  infer_instance

theorem createHashesGo_head (hash : Buf → Buf) (btc sp dup : Bool) (gas : Nat)
    (row : List Buf) : (createHashesGo hash btc sp dup gas row).head? = some row := by
  cases gas with
  | zero => rfl
  | succ g =>
    rw [createHashesGo]
    split <;> simp

theorem createHashesLayers_head (hash : Buf → Buf) (btc sp dup : Bool) (row : List Buf) :
    (createHashesLayers hash btc sp dup row).head? = some row :=
  createHashesGo_head hash btc sp dup row.length row

theorem createHashesGo_chain (hash : Buf → Buf) (btc sp dup : Bool) :
    ∀ (gas : Nat) (row : List Buf), row.length ≤ gas →
      List.Chain' layerRel (createHashesGo hash btc sp dup gas row)
  | 0, row, _ => by simp [createHashesGo]
  | gas + 1, row, hgas => by
    rw [createHashesGo]
    split
    · simp
    · rename_i hlen
      rw [List.chain'_cons']
      have hstep : (createHashesStep hash btc sp dup row).length ≤ gas := by
        rw [createHashesStep_length]
        omega
      refine ⟨?_, createHashesGo_chain hash btc sp dup gas _ hstep⟩
      intro y hy
      rw [createHashesGo_head] at hy
      simp only [Option.mem_def, Option.some.injEq] at hy
      subst hy
      refine ⟨createHashesStep_length hash btc sp dup row, ?_, ?_⟩ <;>
        rw [createHashesStep_length] <;> omega

theorem createHashesLayers_chain (hash : Buf → Buf) (btc sp dup : Bool)
    (row : List Buf) :
    List.Chain' layerRel (createHashesLayers hash btc sp dup row) :=
  createHashesGo_chain hash btc sp dup row.length row le_rfl

theorem createHashesGo_getLast (hash : Buf → Buf) (btc sp dup : Bool) :
    ∀ (gas : Nat) (row : List Buf), row ≠ [] → row.length ≤ gas →
      ∃ r : Buf, (createHashesGo hash btc sp dup gas row).getLast? = some [r]
  | 0, row, hrow, hgas => by
    exact absurd (List.eq_nil_of_length_eq_zero (Nat.le_zero.mp hgas)) hrow
  | gas + 1, row, hrow, hgas => by
    rw [createHashesGo]
    split
    · rename_i hlen
      match row, hrow, hlen with
      | [a], _, _ => exact ⟨a, rfl⟩
    · rename_i hlen
      have hne : createHashesStep hash btc sp dup row ≠ [] := by
        intro hnil
        have := createHashesStep_length hash btc sp dup row
        rw [hnil] at this
        simp at this
        omega
      have hstep : (createHashesStep hash btc sp dup row).length ≤ gas := by
        rw [createHashesStep_length]
        omega
      obtain ⟨r, hr⟩ := createHashesGo_getLast hash btc sp dup gas
        (createHashesStep hash btc sp dup row) hne hstep
      refine ⟨r, ?_⟩
      rw [getLast?_cons_ne_nil _ ?_, hr]
      intro hnil
      have := createHashesGo_head hash btc sp dup gas (createHashesStep hash btc sp dup row)
      rw [hnil] at this
      simp at this

theorem createHashesLayers_getLast (hash : Buf → Buf) (btc sp dup : Bool) :
    ∀ row : List Buf, row ≠ [] →
      ∃ r : Buf, (createHashesLayers hash btc sp dup row).getLast? = some [r] :=
  fun row hrow => createHashesGo_getLast hash btc sp dup row.length row hrow le_rfl

/-- Hash-call count of one layer iteration under the default promotion policy:
one call per complete pair, none for the promoted trailing node. -/
theorem createHashesStepCalls_default :
    ∀ row : List Buf, createHashesStepCalls false false row = row.length / 2
  | [] => by simp [createHashesStepCalls]
  | [_] => by simp [createHashesStepCalls]
  | _ :: _ :: rest => by
    simp [createHashesStepCalls, createHashesStepCalls_default rest]
    omega

/-- C5: during construction with `isBitcoinTree` enabled, a layer ending with
exactly one unpaired trailing node of digest `d` pushes
`reverse(hash(hash(reverse(d) ++ reverse(d))))` into the next layer: the node
is duplicated, each copy byte-reversed, the copies concatenated, hashed twice,
and the result byte-reversed — always a fresh hash image of `d`, never `d`
passed through. -/
theorem claim_C5 (hash : Buf → Buf) (sp dup : Bool) (row : List Buf) (d : Buf)
    (hodd : row.length % 2 = 1) (_hgt : 1 < row.length)
    (hlast : row.getLast? = some d) :
    (createHashesStep hash true sp dup row).getLast? =
      some (bufReverse (hash (hash (bufReverse d ++ bufReverse d)))) := by
  have h := createHashesStep_getLast_odd hash true sp dup row hodd
  rw [List.getLastD_eq_getLast?, hlast] at h
  simpa [btcOddHash] using h

theorem claim_C5_witness :
    (([[1], [2], [3]] : List Buf).length % 2 = 1 ∧ 1 < ([[1], [2], [3]] : List Buf).length ∧
      ([[1], [2], [3]] : List Buf).getLast? = some [3]) ∧
    (createHashesStep toyHash true false false [[1], [2], [3]]).getLast? =
      some (bufReverse (toyHash (toyHash (bufReverse [3] ++ bufReverse [3])))) :=
  ⟨⟨by decide, by decide, by decide⟩,
    claim_C5 toyHash false false [[1], [2], [3]] [3] (by decide) (by decide) (by decide)⟩

/-- C6: with `isBitcoinTree` and `duplicateOdd` both disabled, a layer of odd
length greater than one pushes its lone trailing node unchanged into the next
layer, and the iteration hashes only the complete pairs — no hash call is made
for that node. -/
theorem claim_C6 (hash : Buf → Buf) (sp : Bool) (row : List Buf) (d : Buf)
    (hodd : row.length % 2 = 1) (_hgt : 1 < row.length)
    (hlast : row.getLast? = some d) :
    (createHashesStep hash false sp false row).getLast? = some d ∧
    createHashesStepCalls false false row = (row.length - 1) / 2 := by
  have h := createHashesStep_getLast_odd hash false sp false row hodd
  rw [List.getLastD_eq_getLast?, hlast] at h
  refine ⟨by simpa using h, ?_⟩
  rw [createHashesStepCalls_default]
  omega

theorem claim_C6_witness :
    (([[5], [6], [7]] : List Buf).length % 2 = 1 ∧ 1 < ([[5], [6], [7]] : List Buf).length ∧
      ([[5], [6], [7]] : List Buf).getLast? = some [7]) ∧
    ((createHashesStep toyHash false false false [[5], [6], [7]]).getLast? = some [7] ∧
      createHashesStepCalls false false [[5], [6], [7]] = 1) :=
  ⟨⟨by decide, by decide, by decide⟩,
    claim_C6 toyHash false [[5], [6], [7]] [7] (by decide) (by decide) (by decide)⟩

/-- C7: for every tree built from a non-empty leaf list the successive layer
lengths satisfy: next = ⌈previous/2⌉, next ≤ previous, and next < previous
whenever the previous layer has more than one node; and the final layer is
exactly the one-node list containing the value `getRoot` returns. -/
theorem MerkleTree.leavesOf_length (hash : Buf → Buf) (o : MerkleTree.MTOptions)
    (lv : List Buf) : (MerkleTree.leavesOf hash o lv).length = lv.length := by
  unfold MerkleTree.leavesOf
  by_cases hs : o.effSortLeaves <;> by_cases hh : o.hashLeaves <;>
    simp [hs, hh, List.length_mergeSort]

theorem claim_C7 (hash : Buf → Buf) (o : MerkleTree.MTOptions) (lv : List Buf)
    (hlv : lv ≠ []) :
    List.Chain' layerRel (MerkleTree.layers hash o lv) ∧
    (MerkleTree.layers hash o lv).getLast? = some [MerkleTree.getRoot hash o lv] := by
  have hlen : (MerkleTree.leavesOf hash o lv).length = lv.length :=
    MerkleTree.leavesOf_length hash o lv
  have hne : MerkleTree.leavesOf hash o lv ≠ [] := by
    intro hnil
    rw [hnil] at hlen
    exact hlv (List.eq_nil_of_length_eq_zero hlen.symm)
  obtain ⟨r, hr⟩ := createHashesLayers_getLast hash o.isBitcoinTree o.effSortPairs
    o.duplicateOdd (MerkleTree.leavesOf hash o lv) hne
  refine ⟨createHashesLayers_chain _ _ _ _ _, ?_⟩
  have hroot : MerkleTree.getRoot hash o lv = r := by
    unfold MerkleTree.getRoot
    rw [List.getLastD_eq_getLast?]
    unfold MerkleTree.layers
    rw [hr]
    rfl
  rw [hroot]
  exact hr

theorem claim_C7_witness :
    (([[1], [2], [3]] : List Buf) ≠ []) ∧
    (List.Chain' layerRel (MerkleTree.layers toyHash {} [[1], [2], [3]]) ∧
      (MerkleTree.layers toyHash {} [[1], [2], [3]]).getLast? =
        some [MerkleTree.getRoot toyHash {} [[1], [2], [3]]]) :=
  ⟨by decide, claim_C7 toyHash {} [[1], [2], [3]] (by decide)⟩

/-- C9: a tree constructed eagerly from an empty leaf list installs the empty
leaf list as its only layer (`createHashes` performs no iterations), and
`getRoot` falls back to the empty byte sequence instead of failing. -/
theorem claim_C9 (hash : Buf → Buf) (o : MerkleTree.MTOptions) :
    MerkleTree.layers hash o [] = [[]] ∧ MerkleTree.getRoot hash o [] = [] := by
  have hleaves : MerkleTree.leavesOf hash o [] = [] := by
    unfold MerkleTree.leavesOf
    by_cases hs : o.effSortLeaves <;> by_cases hh : o.hashLeaves <;> simp [hs, hh]
  have hlayers : MerkleTree.layers hash o [] = [[]] := by
    unfold MerkleTree.layers
    rw [hleaves]
    rfl
  exact ⟨hlayers, by unfold MerkleTree.getRoot; rw [hlayers]; rfl⟩

/-! ## Proof generation and verification

`src/index.ts` stores leaves either as plain buffers or, when the
`createLeaves` leaf-augmentation transform is configured, as objects
`{ ...meta, value : Buffer }`.  `AVal` is a node value as it sits in a layer:
a plain buffer (`raw`) or an augmented leaf object carrying its canonical
bytes (`aug`). -/

inductive AVal where
  | raw (b : Buf)
  | aug (value : Buf)
deriving DecidableEq, Repr

/-- `Buffer.isBuffer(x) ? x : x.value`, the unwrapping `createHashes` applies
to pair members when `createLeaves` is active. -/
def AVal.bytes : AVal → Buf
  | raw b => b
  | aug v => v

deriving instance DecidableEq for Except

/-- A JavaScript value reaching the `verify`/`getProof` boundary: `undefined`,
`null`, a `Buffer`, or an augmented leaf object. -/
inductive JSVal where
  | undefV
  | nullV
  | bufV (b : Buf)
  | augV (v : Buf)
deriving DecidableEq, Repr

/-- JavaScript truthiness of such a value (objects are truthy even when
empty). -/
def JSVal.truthy : JSVal → Bool
  | .undefV => false
  | .nullV => false
  | .bufV _ => true
  | .augV _ => true

/-- `bufferify` (src/index.ts lines 480-493).  A `Buffer` is returned as-is.
`null` has `typeof null === "object"`, so the crypto-js probe reads
`null.words` and throws a `TypeError`.  `undefined` is neither an object nor a
string and is returned unchanged.  An augmented leaf object has no `words`
field, is not a string, and is returned unchanged. -/
def bufferify : JSVal → Except Unit JSVal
  | .nullV => .error ()
  | .undefV => .ok .undefV
  | .bufV b => .ok (.bufV b)
  | .augV v => .ok (.augV v)

/-- Side recorded on a proof entry (`position: 'left' | 'right'`). -/
inductive Side where
  | left
  | right
deriving DecidableEq, Repr

/-- One object entry of a generated proof: the Bitcoin path records no
`position`. -/
structure ProofNode where
  position : Option Side
  data : AVal
deriving DecidableEq, Repr

/-- One element of the proof array handed to `verify`: an entry object, or a
bare hex string (bufferified and treated as a left sibling). -/
inductive ProofElem where
  | node (n : ProofNode)
  | hexStr (b : Buf)
deriving DecidableEq, Repr

/-- One iteration of the `verify` fold (src/index.ts lines 358-396).  The
sibling bytes join the running hash on the recorded side (Bitcoin: both
reversed, double hash, reversed; `sortPairs`: ascending byte order, single
hash; otherwise positional, single hash).  A non-buffer `data` (an augmented
object leaking into a proof) makes `Buffer.compare`/`Buffer.concat`/`reverse`
throw. -/
def verifyStep (hash : Buf → Buf) (btc sp : Bool) (acc : Buf) (e : ProofElem) :
    Except Unit Buf :=
  let dataVal : AVal := match e with
    | .hexStr b => .raw b
    | .node n => n.data
  let isLeft : Bool := match e with
    | .hexStr _ => true
    | .node n => n.position = some .left
  match dataVal with
  | .raw d =>
    if btc then
      .ok (bufReverse (hash (hash
        (if isLeft then bufReverse d ++ bufReverse acc
          else bufReverse acc ++ bufReverse d))))
    else if sp then
      .ok (hash (if bufCompare acc d = .lt then acc ++ d else d ++ acc))
    else
      .ok (hash (if isLeft then d ++ acc else acc ++ d))
  | .aug _ => .error ()

/-- `MerkleTree.verify` (src/index.ts lines 350-399).  `targetNode` and `root`
are bufferified before the shape check, so a `null` in either position throws;
a non-array or empty `proof`, or a falsy (absent) leaf or root, returns
`false`; otherwise the proof entries are folded over the canonicalized leaf
and the result compared byte-wise with the expected root. -/
def MerkleVerify (hash : Buf → Buf) (btc sp : Bool)
    (proofArg : Option (List ProofElem)) (targetNode root : JSVal) :
    Except Unit Bool := do
  let hash0 ← bufferify targetNode
  let root2 ← bufferify root
  match proofArg with
  | none => return false
  | some proof =>
    if proof = [] ∨ ¬ targetNode.truthy ∨ ¬ root2.truthy then
      return false
    else
      match hash0 with
      | .bufV b0 => do
        let final ← proof.foldlM (verifyStep hash btc sp) b0
        match root2 with
        | .bufV rb => return final = rb
        | _ => .error ()
      | _ => .error ()

namespace MerkleTree

/-- The non-Bitcoin proof loop of `getProof` (src/index.ts lines 306-323) over
the layers of a plain tree: sibling index `index−1` when `index` is odd,
`index+1` when even; the entry is kept only when that index is in bounds; the
running index then becomes `⌊index/2⌋`. -/
def proofLoopPlain : List (List Buf) → Nat → List ProofElem
  | [], _ => []
  | layer :: rest, idx =>
    let pairIndex := if idx % 2 = 1 then idx - 1 else idx + 1
    (if h : pairIndex < layer.length then
      [ProofElem.node ⟨some (if idx % 2 = 1 then Side.left else Side.right),
        AVal.raw (layer.get ⟨pairIndex, h⟩)⟩]
    else []) ++ proofLoopPlain rest (idx / 2)

/-- The Bitcoin proof loop of `getProof` (src/index.ts lines 286-300): runs
over all layers but the last, pairs a right node with its left sibling and a
lone left node with itself, and records no `position`. -/
def proofLoopBtc : List (List Buf) → Nat → List ProofElem
  | [], _ => []
  | layer :: rest, idx =>
    let pairIndex := if idx % 2 = 1 then idx - 1 else idx
    (if h : pairIndex < layer.length then
      [ProofElem.node ⟨none, AVal.raw (layer.get ⟨pairIndex, h⟩)⟩]
    else []) ++ proofLoopBtc rest (idx / 2)

/-- `MerkleTree.getProof` on a plain (non-`createLeaves`) tree.  When the
index is omitted, the search loop compares the target against
`this.leaves[i].value`; plain leaves are buffers whose `value` property is
`undefined`, so the first iteration of the loop throws a `TypeError` whenever
there is at least one leaf.  A negative index returns the empty proof; a
non-negative one runs the Bitcoin loop exactly when `isBitcoinTree` is set and
the index equals `leaves.length − 1`, and the plain loop otherwise. -/
def getProof (hash : Buf → Buf) (o : MTOptions) (lv : List Buf) (_leaf : Buf)
    (index? : Option Int) : Except Unit (List ProofElem) := do
  let lvs := leavesOf hash o lv
  let i : Int ← match index? with
    | some i => pure i
    | none => if lvs.isEmpty then pure (-1 : Int) else Except.error ()
  if i ≤ -1 then
    return []
  else if o.isBitcoinTree ∧ i = (lvs.length : Int) - 1 then
    return proofLoopBtc (layers hash o lv).dropLast i.toNat
  else
    return proofLoopPlain (layers hash o lv) i.toNat

end MerkleTree

/-- One `createHashes` layer iteration on a tree built with a `createLeaves`
leaf-augmentation transform (`this.createLeaves` truthy forces
`isBitcoinTree = false` in the constructor): pair members are unwrapped with
`Buffer.isBuffer(x) ? x : x.value` before concatenation, the pair digest is a
plain buffer, and a promoted lone trailing node keeps whatever shape it had. -/
def createHashesStepCL (hash : Buf → Buf) (sp dup : Bool) : List AVal → List AVal
  | [] => []
  | [a] =>
    if dup then [AVal.raw (hash (combineData sp a.bytes a.bytes))]
    else [a]
  | a :: b :: rest =>
    AVal.raw (hash (combineData sp a.bytes b.bytes)) :: createHashesStepCL hash sp dup rest

theorem createHashesStepCL_length (hash : Buf → Buf) (sp dup : Bool) :
    ∀ nodes : List AVal,
      (createHashesStepCL hash sp dup nodes).length = (nodes.length + 1) / 2
  | [] => by simp [createHashesStepCL]
  | [a] => by by_cases hd : dup <;> simp [createHashesStepCL, hd]
  | a :: b :: rest => by
    simp [createHashesStepCL, createHashesStepCL_length hash sp dup rest]
    omega

/-- The layer loop of a `createLeaves` tree, with the same structural
iteration bound as `createHashesGo`. -/
def createHashesGoCL (hash : Buf → Buf) (sp dup : Bool) :
    Nat → List AVal → List (List AVal)
  | 0, nodes => [nodes]
  | gas + 1, nodes =>
    if nodes.length ≤ 1 then [nodes]
    else nodes :: createHashesGoCL hash sp dup gas (createHashesStepCL hash sp dup nodes)

/-- Layers of a `createLeaves` tree, leaves first. -/
def createHashesLayersCL (hash : Buf → Buf) (sp dup : Bool) (nodes : List AVal) :
    List (List AVal) :=
  createHashesGoCL hash sp dup nodes.length nodes

namespace MerkleTreeCL

/-- Layers of a tree whose augmented leaves carry the canonical byte values
`vals` (the caller's `createLeaves` transform, optional pre-hashing and
optional sorting have already produced this value list). -/
def layers (hash : Buf → Buf) (sp dup : Bool) (vals : List Buf) : List (List AVal) :=
  createHashesLayersCL hash sp dup (vals.map AVal.aug)

/-- `getRoot` of a `createLeaves` tree: the sole node of the last layer (for a
single leaf this is the augmented object itself, not its bytes). -/
def getRootVal (hash : Buf → Buf) (sp dup : Bool) (vals : List Buf) : AVal :=
  ((layers hash sp dup vals).getLastD []).headD (AVal.raw [])

/-- The index-search loop of `getProof` when the index argument is omitted
(src/index.ts lines 269-277): every byte-equal match overwrites `index`, so
the value left behind is the index of the last match, `−1` when none. -/
def findLastIdx (vals : List Buf) (leaf : Buf) : Int :=
  (List.range vals.length).foldl
    (fun acc i => if vals.getD i [] = leaf then (i : Int) else acc) (-1)

/-- The non-Bitcoin proof loop on a `createLeaves` tree: on layer 0 the entry
data is the augmented sibling's `value` buffer; on deeper layers it is the
stored node itself (a hash buffer, or an augmented object that was promoted
out of layer 0). -/
def proofLoopCL (first : Bool) : List (List AVal) → Nat → List ProofElem
  | [], _ => []
  | layer :: rest, idx =>
    let pairIndex := if idx % 2 = 1 then idx - 1 else idx + 1
    (if h : pairIndex < layer.length then
      [ProofElem.node ⟨some (if idx % 2 = 1 then Side.left else Side.right),
        if first then AVal.raw (layer.get ⟨pairIndex, h⟩).bytes
        else layer.get ⟨pairIndex, h⟩⟩]
    else []) ++ proofLoopCL false rest (idx / 2)

/-- `MerkleTree.getProof` on a `createLeaves` tree (never Bitcoin): omitted
index searches layer 0 by augmented value, negative index yields the empty
proof, otherwise the per-layer sibling loop runs. -/
def getProof (hash : Buf → Buf) (sp dup : Bool) (vals : List Buf) (leaf : Buf)
    (index? : Option Int) : List ProofElem :=
  let idx : Int := match index? with
    | some i => i
    | none => findLastIdx vals leaf
  if idx ≤ -1 then []
  else proofLoopCL true (layers hash sp dup vals) idx.toNat

end MerkleTreeCL

/-- The specified position of "the last byte-equal match" in the leaf value
list, written independently of the implementation: the greatest index whose
value equals the target, if any. -/
def lastMatchIdx (vals : List Buf) (leaf : Buf) : Option Nat :=
  ((List.range vals.length).filter (fun k => vals.getD k [] = leaf)).getLast?

theorem foldl_last_assign (P : Nat → Bool) :
    ∀ (n : Nat) (acc : Int),
      (List.range n).foldl (fun a i => if P i then (i : Int) else a) acc =
        match ((List.range n).filter P).getLast? with
        | some i => (i : Int)
        | none => acc := by
  intro n
  induction n with
  | zero => intro acc; simp
  | succ m ih =>
    intro acc
    rw [List.range_succ, List.foldl_append, List.filter_append]
    by_cases hp : P m
    · simp [hp, ih]
    · simp [hp, ih]

/-- `findLastIdx` is `−1` with no match, else the greatest matching index. -/
theorem findLastIdx_eq (vals : List Buf) (leaf : Buf) :
    MerkleTreeCL.findLastIdx vals leaf =
      match lastMatchIdx vals leaf with
      | some i => (i : Int)
      | none => -1 := by
  unfold MerkleTreeCL.findLastIdx lastMatchIdx
  have h := foldl_last_assign (fun k => decide (vals.getD k [] = leaf)) vals.length (-1)
  simpa using h

/-- C3 (corrected): on a `createLeaves` tree, an omitted index behaves as if
the index of the LAST byte-equal match in layer 0 had been supplied (every
match overwrites the search variable), and no match yields the empty proof
without an error; on a plain tree the search loop reads `.value` of a plain
buffer leaf and `Buffer.compare` throws whenever there is at least one leaf. -/
theorem claim_C3 (hash : Buf → Buf) (o : MerkleTree.MTOptions) (sp dup : Bool)
    (vals lv : List Buf) (leaf : Buf) :
    (∀ i : Nat, lastMatchIdx vals leaf = some i →
      MerkleTreeCL.getProof hash sp dup vals leaf none =
        MerkleTreeCL.getProof hash sp dup vals leaf (some (i : Int))) ∧
    (lastMatchIdx vals leaf = none →
      MerkleTreeCL.getProof hash sp dup vals leaf none = []) ∧
    (lv ≠ [] → MerkleTree.getProof hash o lv leaf none = .error ()) := by
  refine ⟨?_, ?_, ?_⟩
  · intro i hi
    unfold MerkleTreeCL.getProof
    rw [findLastIdx_eq, hi]
  · intro hi
    unfold MerkleTreeCL.getProof
    rw [findLastIdx_eq, hi]
    simp
  · intro hlv
    have hlen : (MerkleTree.leavesOf hash o lv).length = lv.length :=
      MerkleTree.leavesOf_length hash o lv
    have hne : (MerkleTree.leavesOf hash o lv).isEmpty = false := by
      cases h : MerkleTree.leavesOf hash o lv with
      | nil =>
        rw [h] at hlen
        simp at hlen
        exact absurd (List.eq_nil_of_length_eq_zero hlen.symm) hlv
      | cons a l => rfl
    unfold MerkleTree.getProof
    simp only [hne]
    rfl

theorem claim_C3_witness :
    (lastMatchIdx [[9], [9]] [9] = some 1 ∧
      MerkleTreeCL.getProof toyHash false false [[9], [9]] [9] none =
        MerkleTreeCL.getProof toyHash false false [[9], [9]] [9] (some 1)) ∧
    (lastMatchIdx [[9], [9]] [8] = none ∧
      MerkleTreeCL.getProof toyHash false false [[9], [9]] [8] none = []) ∧
    (([[0], [1]] : List Buf) ≠ [] ∧
      MerkleTree.getProof toyHash {} [[0], [1]] [0] none = .error ()) :=
  ⟨⟨by decide, (claim_C3 toyHash {} false false [[9], [9]] [] [9]).1 1 (by decide)⟩,
    ⟨by decide, (claim_C3 toyHash {} false false [[9], [9]] [] [8]).2.1 (by decide)⟩,
    ⟨by decide, (claim_C3 toyHash {} false false [] [[0], [1]] [0]).2.2 (by decide)⟩⟩

/-- C3 counterexample: the claim as stated is false on the code.  With
duplicate augmented leaves `[[9],[9]]` and target `[9]`, the omitted-index
proof marks the sibling `left` (the last match, index 1), while the
first-match index 0 would mark it `right`; and on a plain two-leaf tree the
omitted-index lookup throws instead of returning an empty proof for an absent
leaf. -/
theorem claim_C3_counterexample :
    MerkleTreeCL.getProof toyHash false false [[9], [9]] [9] none =
      [ProofElem.node ⟨some Side.left, AVal.raw [9]⟩] ∧
    MerkleTreeCL.getProof toyHash false false [[9], [9]] [9] (some 0) =
      [ProofElem.node ⟨some Side.right, AVal.raw [9]⟩] ∧
    MerkleTree.getProof toyHash {} [[0], [1]] [2] none = .error () := by
  refine ⟨by decide, by decide, by decide⟩

/-- C4 (corrected): `verify` canonicalizes the target and root before its
shape check, so with non-`null` target and root it returns `false` without
throwing for a non-array or empty proof and for an absent (`undefined`) target
or root; but a `null` target or root makes the canonicalization itself read
`null.words` and throw a `TypeError`. -/
theorem claim_C4 (hash : Buf → Buf) (btc sp : Bool)
    (proofArg : Option (List ProofElem)) (target root : JSVal) :
    (target ≠ .nullV → root ≠ .nullV → (proofArg = none ∨ proofArg = some []) →
      MerkleVerify hash btc sp proofArg target root = .ok false) ∧
    (target ≠ .nullV → root ≠ .nullV → (target = .undefV ∨ root = .undefV) →
      MerkleVerify hash btc sp proofArg target root = .ok false) ∧
    (target = .nullV → MerkleVerify hash btc sp proofArg target root = .error ()) ∧
    (target ≠ .nullV → root = .nullV →
      MerkleVerify hash btc sp proofArg target root = .error ()) := by
  refine ⟨?_, ?_, ?_, ?_⟩
  · intro ht hr hp
    rcases hp with hp | hp <;> subst hp <;>
      cases target <;> cases root <;>
        first
          | exact absurd rfl ht
          | exact absurd rfl hr
          | rfl
  · intro ht hr hp
    cases proofArg with
    | none =>
      cases target <;> cases root <;>
        first
          | exact absurd rfl ht
          | exact absurd rfl hr
          | rfl
    | some proof =>
      rcases hp with hp | hp
      · subst hp
        cases root <;>
          first
            | exact absurd rfl hr
            | (cases proof <;> rfl)
      · subst hp
        cases target <;>
          first
            | exact absurd rfl ht
            | (cases proof <;> rfl)
  · intro ht
    subst ht
    rfl
  · intro ht hr
    subst hr
    cases target <;>
      first
        | exact absurd rfl ht
        | rfl

theorem claim_C4_witness :
    MerkleVerify toyHash false false (some []) (.bufV [1]) (.bufV [2]) = .ok false ∧
    MerkleVerify toyHash false false
      (some [ProofElem.node ⟨some Side.left, AVal.raw [3]⟩]) .undefV (.bufV [2]) =
        .ok false ∧
    MerkleVerify toyHash false false none (.bufV [1]) .nullV = .error () :=
  ⟨(claim_C4 toyHash false false (some []) (.bufV [1]) (.bufV [2])).1
      (by decide) (by decide) (Or.inr rfl),
    (claim_C4 toyHash false false (some [ProofElem.node ⟨some Side.left, AVal.raw [3]⟩])
      .undefV (.bufV [2])).2.1 (by decide) (by decide) (Or.inl rfl),
    (claim_C4 toyHash false false none (.bufV [1]) .nullV).2.2.2 (by decide) rfl⟩

/-- C4 counterexample: the claim's "never throws for a missing (null) leaf"
is false — a well-shaped call with a `null` target leaf throws inside
`bufferify` instead of returning `false`. -/
theorem claim_C4_counterexample :
    MerkleVerify toyHash false false
      (some [ProofElem.node ⟨some Side.left, AVal.raw [1]⟩]) .nullV (.bufV [1]) =
        .error () := by
  decide

/-- C10: an explicit index at or beyond the leaf count is not treated as
not-found — only an index `≤ −1` takes the empty-proof return — and the result
is exactly what the per-layer sibling arithmetic produces for that index. -/
theorem claim_C10 (hash : Buf → Buf) (o : MerkleTree.MTOptions) (lv : List Buf)
    (leaf : Buf) (i : Int) :
    (i ≤ -1 → MerkleTree.getProof hash o lv leaf (some i) = .ok []) ∧
    ((lv.length : Int) ≤ i →
      MerkleTree.getProof hash o lv leaf (some i) =
        .ok (MerkleTree.proofLoopPlain (MerkleTree.layers hash o lv) i.toNat)) := by
  constructor
  · intro hi
    unfold MerkleTree.getProof
    simp [hi]
    rfl
  · intro hi
    have hlen : ((MerkleTree.leavesOf hash o lv).length : Int) = (lv.length : Int) := by
      rw [MerkleTree.leavesOf_length]
    have h0 : (0 : Int) ≤ (lv.length : Int) := Int.ofNat_nonneg _
    have hneg : ¬ i ≤ -1 := by omega
    have hbtc : ¬ (o.isBitcoinTree = true ∧ i = ((MerkleTree.leavesOf hash o lv).length : Int) - 1) := by
      rintro ⟨-, hix⟩
      omega
    unfold MerkleTree.getProof
    simp [hneg, hbtc]
    try rfl

theorem claim_C10_witness :
    MerkleTree.getProof toyHash {} [[1], [2]] [9] (some (-5)) = .ok [] ∧
    (MerkleTree.getProof toyHash {} [[1], [2]] [9] (some 2) =
      .ok (MerkleTree.proofLoopPlain (MerkleTree.layers toyHash {} [[1], [2]]) (2 : Int).toNat) ∧
      MerkleTree.proofLoopPlain (MerkleTree.layers toyHash {} [[1], [2]]) (2 : Int).toNat ≠ []) :=
  ⟨(claim_C10 toyHash {} [[1], [2]] [9] (-5)).1 (by decide),
    ⟨(claim_C10 toyHash {} [[1], [2]] [9] 2).2 (by decide), by decide⟩⟩

theorem bufCompare_gt_iff_lt : ∀ a b : Buf, bufCompare a b = .gt ↔ bufCompare b a = .lt
  | [], [] => by simp [bufCompare]
  | [], _ :: _ => by simp [bufCompare]
  | _ :: _, [] => by simp [bufCompare]
  | a :: as, b :: bs => by
    by_cases hab : a < b
    · have hba : ¬ b < a := by omega
      simp [bufCompare, hab, hba]
    · by_cases hba : b < a
      · simp [bufCompare, hab, hba]
      · have : a = b := by omega
        subst this
        simp [bufCompare, bufCompare_gt_iff_lt as bs]

/-- A `right` proof entry replays the construction-side pair digest: the
running hash is the left child. -/
theorem verifyStep_right (hash : Buf → Buf) (sp : Bool) (l r : Buf) :
    verifyStep hash false sp l (.node ⟨some Side.right, AVal.raw r⟩) =
      .ok (pairHash hash false sp l r) := by
  by_cases hsp : sp
  · subst hsp
    show Except.ok (hash (if bufCompare l r = .lt then l ++ r else r ++ l)) =
      Except.ok (hash (if bufCompare l r = .gt then r ++ l else l ++ r))
    cases h : bufCompare l r with
    | lt => simp
    | eq => rw [(bufCompare_eq_iff l r).mp h]; simp
    | gt => simp
  · have hsp2 : sp = false := by simpa using hsp
    subst hsp2
    rfl

/-- A `left` proof entry replays the construction-side pair digest: the
running hash is the right child. -/
theorem verifyStep_left (hash : Buf → Buf) (sp : Bool) (l r : Buf) :
    verifyStep hash false sp r (.node ⟨some Side.left, AVal.raw l⟩) =
      .ok (pairHash hash false sp l r) := by
  by_cases hsp : sp
  · subst hsp
    show Except.ok (hash (if bufCompare r l = .lt then r ++ l else l ++ r)) =
      Except.ok (hash (if bufCompare l r = .gt then r ++ l else l ++ r))
    cases h : bufCompare l r with
    | lt =>
      have h2 : bufCompare r l = .gt := (bufCompare_gt_iff_lt r l).mpr h
      simp [h, h2]
    | eq => rw [(bufCompare_eq_iff l r).mp h]; simp
    | gt =>
      have h2 : bufCompare r l = .lt := (bufCompare_gt_iff_lt l r).mp h
      simp [h, h2]
  · have hsp2 : sp = false := by simpa using hsp
    subst hsp2
    rfl

/-- Element `k` of a layer iteration is the digest of the pair `(2k, 2k+1)`
whenever that pair is complete. -/
theorem createHashesStep_getD_pair (hash : Buf → Buf) (btc sp dup : Bool) :
    ∀ (row : List Buf) (k : Nat), 2 * k + 1 < row.length →
      (createHashesStep hash btc sp dup row).getD k [] =
        pairHash hash btc sp (row.getD (2 * k) []) (row.getD (2 * k + 1) [])
  | [], k, h => by simp at h
  | [a], k, h => by simp at h
  | a :: b :: rest, 0, h => by simp [createHashesStep]
  | a :: b :: rest, k + 1, h => by
    have hrest : 2 * k + 1 < rest.length := by simp at h; omega
    have ih := createHashesStep_getD_pair hash btc sp dup rest k hrest
    have e1 : 2 * (k + 1) = 2 * k + 1 + 1 := by omega
    have e2 : 2 * (k + 1) + 1 = 2 * k + 1 + 1 + 1 := by omega
    simp only [createHashesStep, List.getD_cons_succ, e1, e2]
    exact ih

/-- Element `k` of a layer iteration under the promotion policy is the
trailing node itself when the layer has exactly `2k+1` nodes. -/
theorem createHashesStep_getD_promoted (hash : Buf → Buf) (sp : Bool) :
    ∀ (row : List Buf) (k : Nat), row.length = 2 * k + 1 →
      (createHashesStep hash false sp false row).getD k [] = row.getD (2 * k) []
  | [], k, h => by simp at h
  | [a], k, h => by
    have : k = 0 := by simp at h; omega
    subst this
    simp [createHashesStep]
  | a :: b :: rest, k, h => by
    have hk : 1 ≤ k := by simp at h; omega
    obtain ⟨k2, rfl⟩ : ∃ k2, k = k2 + 1 := ⟨k - 1, by omega⟩
    have hrest : rest.length = 2 * k2 + 1 := by simp at h; omega
    have ih := createHashesStep_getD_promoted hash sp rest k2 hrest
    have e1 : 2 * (k2 + 1) = 2 * k2 + 1 + 1 := by omega
    simp only [createHashesStep, List.getD_cons_succ, e1]
    exact ih

theorem createHashesGo_ne_nil (hash : Buf → Buf) (btc sp dup : Bool) (gas : Nat)
    (row : List Buf) : createHashesGo hash btc sp dup gas row ≠ [] := by
  cases gas with
  | zero => simp [createHashesGo]
  | succ g =>
    rw [createHashesGo]
    split <;> simp

theorem getLastD_cons_ne_nil {α : Type} (a : α) {l : List α} (h : l ≠ []) (d : α) :
    (a :: l).getLastD d = l.getLastD d := by
  rw [List.getLastD_eq_getLast?, List.getLastD_eq_getLast?, getLast?_cons_ne_nil _ h]

theorem get_eq_getD {α : Type} {l : List α} {n : Nat} (h : n < l.length) (d : α) :
    l.get ⟨n, h⟩ = l.getD n d := by
  rw [List.getD_eq_getElem?_getD, List.getElem?_eq_getElem h]
  rfl

/-- Folding `verify` over the plain-tree proof entries for position `idx`
rebuilds the digest one layer up at position `⌊idx/2⌋`, and by induction the
single node of the final layer: the non-Bitcoin promotion-policy construction
and the proof/verify pair agree layer by layer. -/
theorem verify_path_go (hash : Buf → Buf) (sp : Bool) :
    ∀ (gas : Nat) (row : List Buf) (idx : Nat), idx < row.length → row.length ≤ gas →
      (MerkleTree.proofLoopPlain (createHashesGo hash false sp false gas row) idx).foldlM
          (verifyStep hash false sp) (row.getD idx [])
        = Except.ok (((createHashesGo hash false sp false gas row).getLastD []).headD [])
  | 0, row, idx, hidx, hgas => by omega
  | gas + 1, row, idx, hidx, hgas => by
    rw [createHashesGo]
    by_cases hle : row.length ≤ 1
    · rw [if_pos hle]
      have hlen1 : row.length = 1 := by omega
      have hidx0 : idx = 0 := by omega
      subst hidx0
      match row, hlen1 with
      | [a], _ =>
        show List.foldlM _ _ (MerkleTree.proofLoopPlain [[a]] 0) = _
        rw [show MerkleTree.proofLoopPlain [[a]] 0 = [] from rfl]
        rfl
    · rw [if_neg hle]
      have hlen2 : 2 ≤ row.length := by omega
      set stepRow := createHashesStep hash false sp false row with hstep
      have hsteplen : stepRow.length = (row.length + 1) / 2 :=
        createHashesStep_length hash false sp false row
      have hgas2 : stepRow.length ≤ gas := by omega
      have hidx2 : idx / 2 < stepRow.length := by omega
      have ihyp := verify_path_go hash sp gas stepRow (idx / 2) hidx2 hgas2
      have hgo_ne : createHashesGo hash false sp false gas stepRow ≠ [] :=
        createHashesGo_ne_nil hash false sp false gas stepRow
      rw [MerkleTree.proofLoopPlain]
      rw [getLastD_cons_ne_nil _ hgo_ne]
      by_cases hpar : idx % 2 = 1
      · -- right node: left sibling entry always in bounds
        have hpair : idx - 1 < row.length := by omega
        rw [if_pos hpar, dif_pos hpair]
        simp only [List.cons_append, List.nil_append, List.foldlM_cons]
        rw [if_pos hpar]
        rw [get_eq_getD hpair []]
        rw [verifyStep_left hash sp (row.getD (idx - 1) []) (row.getD idx [])]
        have hk : stepRow.getD (idx / 2) [] =
            pairHash hash false sp (row.getD (2 * (idx / 2)) [])
              (row.getD (2 * (idx / 2) + 1) []) := by
          apply createHashesStep_getD_pair
          omega
        have e1 : 2 * (idx / 2) = idx - 1 := by omega
        rw [e1] at hk
        have e2 : idx - 1 + 1 = idx := by omega
        rw [e2] at hk
        rw [← hk]
        simpa using ihyp
      · have hpar0 : idx % 2 = 0 := by omega
        by_cases hin : idx + 1 < row.length
        · -- left node with a right sibling
          rw [if_neg (by omega : ¬ idx % 2 = 1), dif_pos hin]
          simp only [List.cons_append, List.nil_append, List.foldlM_cons]
          rw [if_neg (by omega : ¬ idx % 2 = 1)]
          rw [get_eq_getD hin []]
          rw [verifyStep_right hash sp (row.getD idx []) (row.getD (idx + 1) [])]
          have hk : stepRow.getD (idx / 2) [] =
              pairHash hash false sp (row.getD (2 * (idx / 2)) [])
                (row.getD (2 * (idx / 2) + 1) []) := by
            apply createHashesStep_getD_pair
            omega
          have e1 : 2 * (idx / 2) = idx := by omega
          rw [e1] at hk
          rw [← hk]
          simpa using ihyp
        · -- promoted trailing node: no entry at this layer
          have hlast : row.length = idx + 1 := by omega
          rw [if_neg (by omega : ¬ idx % 2 = 1), dif_neg (by omega : ¬ idx + 1 < row.length)]
          simp only [List.nil_append]
          have hk : stepRow.getD (idx / 2) [] = row.getD (2 * (idx / 2)) [] := by
            apply createHashesStep_getD_promoted
            omega
          have e1 : 2 * (idx / 2) = idx := by omega
          rw [e1] at hk
          rw [← hk]
          exact ihyp

/-- On a layer of plain buffers the `createLeaves` iteration agrees with the
plain one: the `Buffer.isBuffer` probe is the identity there. -/
theorem createHashesStepCL_map_raw (hash : Buf → Buf) (sp dup : Bool) :
    ∀ r : List Buf,
      createHashesStepCL hash sp dup (r.map AVal.raw) =
        (createHashesStep hash false sp dup r).map AVal.raw
  | [] => by simp [createHashesStepCL, createHashesStep]
  | [a] => by
    by_cases hd : dup <;>
      simp [createHashesStepCL, createHashesStep, hd, AVal.bytes, pairHash]
  | a :: b :: rest => by
    simp only [List.map_cons, createHashesStepCL, createHashesStep,
      createHashesStepCL_map_raw hash sp dup rest, AVal.bytes, pairHash]
    simp

theorem createHashesGoCL_map_raw (hash : Buf → Buf) (sp dup : Bool) :
    ∀ (gas : Nat) (r : List Buf),
      createHashesGoCL hash sp dup gas (r.map AVal.raw) =
        (createHashesGo hash false sp dup gas r).map (List.map AVal.raw)
  | 0, r => by simp [createHashesGoCL, createHashesGo]
  | gas + 1, r => by
    rw [createHashesGoCL, createHashesGo]
    by_cases hle : r.length ≤ 1
    · rw [if_pos (by simpa using hle), if_pos hle]
      simp
    · rw [if_neg (by simpa using hle), if_neg hle]
      rw [createHashesStepCL_map_raw hash sp dup r,
        createHashesGoCL_map_raw hash sp dup gas (createHashesStep hash false sp dup r)]
      simp

/-- On an even augmented layer the `createLeaves` iteration produces exactly
the plain digests of the leaf values (no lone node, so the odd-policy branch
never touches an augmented object). -/
theorem createHashesStepCL_aug_even (hash : Buf → Buf) (sp dup : Bool) :
    ∀ vals : List Buf, vals.length % 2 = 0 →
      createHashesStepCL hash sp dup (vals.map AVal.aug) =
        (createHashesStep hash false sp dup vals).map AVal.raw
  | [], _ => by simp [createHashesStepCL, createHashesStep]
  | [a], h => by simp at h
  | a :: b :: rest, h => by
    have hrest : rest.length % 2 = 0 := by simp at h; omega
    simp only [List.map_cons, createHashesStepCL, createHashesStep,
      createHashesStepCL_aug_even hash sp dup rest hrest, AVal.bytes, pairHash]
    simp

/-- Away from layer 0, a proof loop over plain-buffer layers is a plain proof
loop: the entry data is the stored buffer either way. -/
theorem proofLoopCL_raw :
    ∀ (ls : List (List Buf)) (idx : Nat),
      MerkleTreeCL.proofLoopCL false (ls.map (List.map AVal.raw)) idx =
        MerkleTree.proofLoopPlain ls idx
  | [], idx => by simp [MerkleTreeCL.proofLoopCL, MerkleTree.proofLoopPlain]
  | layer :: rest, idx => by
    rw [List.map_cons, MerkleTreeCL.proofLoopCL, MerkleTree.proofLoopPlain,
      proofLoopCL_raw rest (idx / 2)]
    congr 1
    have hlen : (layer.map AVal.raw).length = layer.length := by simp
    by_cases hin : (if idx % 2 = 1 then idx - 1 else idx + 1) < layer.length
    · rw [dif_pos (by simpa [hlen] using hin), dif_pos hin]
      have hget : (layer.map AVal.raw).get ⟨(if idx % 2 = 1 then idx - 1 else idx + 1),
          by simpa [hlen] using hin⟩ =
          AVal.raw (layer.get ⟨(if idx % 2 = 1 then idx - 1 else idx + 1), hin⟩) := by
        simp
      rw [hget]
      simp
    · rw [dif_neg (by simpa [hlen] using hin), dif_neg hin]

/-- The full proof loop on a `createLeaves` tree whose deeper layers are plain
equals the plain proof loop over the value layers: on layer 0 the augmented
sibling is unwrapped to its `value` buffer. -/
theorem proofLoopCL_first (vals : List Buf) (ls : List (List Buf)) (idx : Nat) :
    MerkleTreeCL.proofLoopCL true ((vals.map AVal.aug) :: ls.map (List.map AVal.raw)) idx =
      MerkleTree.proofLoopPlain (vals :: ls) idx := by
  rw [MerkleTreeCL.proofLoopCL, MerkleTree.proofLoopPlain, proofLoopCL_raw ls (idx / 2)]
  congr 1
  have hlen : (vals.map AVal.aug).length = vals.length := by simp
  by_cases hin : (if idx % 2 = 1 then idx - 1 else idx + 1) < vals.length
  · rw [dif_pos (by simpa [hlen] using hin), dif_pos hin]
    have hget : (vals.map AVal.aug).get ⟨(if idx % 2 = 1 then idx - 1 else idx + 1),
        by simpa [hlen] using hin⟩ =
        AVal.aug (vals.get ⟨(if idx % 2 = 1 then idx - 1 else idx + 1), hin⟩) := by
      simp
    rw [hget]
    rfl
  · rw [dif_neg (by simpa [hlen] using hin), dif_neg hin]

/-- A `createLeaves` tree over an even number (≥ 2) of leaf values: layer 0 is
the augmented row and every deeper layer is plain, matching the plain build of
the value list. -/
theorem layersCL_even (hash : Buf → Buf) (sp dup : Bool) (vals : List Buf)
    (hne : vals ≠ []) (heven : vals.length % 2 = 0) :
    MerkleTreeCL.layers hash sp dup vals =
      (vals.map AVal.aug) ::
        (createHashesGo hash false sp dup (vals.length - 1)
          (createHashesStep hash false sp dup vals)).map (List.map AVal.raw) := by
  have hlen2 : 2 ≤ vals.length := by
    have : 0 < vals.length := List.length_pos.mpr hne
    omega
  unfold MerkleTreeCL.layers createHashesLayersCL
  have hmaplen : (vals.map AVal.aug).length = vals.length := by simp
  have hg : vals.length = (vals.length - 1) + 1 := by omega
  rw [hmaplen]
  conv_lhs => rw [hg]
  rw [createHashesGoCL]
  rw [if_neg (by rw [hmaplen]; omega)]
  rw [createHashesStepCL_aug_even hash sp dup vals heven,
    createHashesGoCL_map_raw]

theorem headD_map_raw (l : List Buf) :
    ((l.map AVal.raw).headD (AVal.raw [])).bytes = l.headD [] := by
  cases l <;> rfl

/-- Root of an even `createLeaves` tree: the plain root of the value list. -/
theorem getRootVal_even (hash : Buf → Buf) (sp dup : Bool) (vals : List Buf)
    (hne : vals ≠ []) (heven : vals.length % 2 = 0) :
    (MerkleTreeCL.getRootVal hash sp dup vals).bytes =
      ((createHashesGo hash false sp dup vals.length vals).getLastD []).headD [] := by
  have hlen2 : 2 ≤ vals.length := by
    have : 0 < vals.length := List.length_pos.mpr hne
    omega
  set rest := createHashesGo hash false sp dup (vals.length - 1)
    (createHashesStep hash false sp dup vals) with hrest
  have hrest_ne : rest ≠ [] := createHashesGo_ne_nil hash false sp dup _ _
  have hgo : createHashesGo hash false sp dup vals.length vals = vals :: rest := by
    obtain ⟨g, hg⟩ : ∃ g, vals.length = g + 1 := ⟨vals.length - 1, by omega⟩
    rw [hg, createHashesGo, if_neg (by omega)]
    rw [hrest, hg]
    simp
  unfold MerkleTreeCL.getRootVal
  rw [layersCL_even hash sp dup vals hne heven, ← hrest, hgo]
  rw [getLastD_cons_ne_nil _ (by simpa using hrest_ne) []]
  rw [getLastD_cons_ne_nil _ hrest_ne []]
  rw [List.getLastD_eq_getLast?, List.getLastD_eq_getLast?, List.getLast?_map]
  cases hcase : rest.getLast? with
  | none => rfl
  | some lastLayer =>
    simp only [Option.map_some', Option.getD_some]
    exact headD_map_raw lastLayer

/-- A present leaf value always has a last byte-equal match, and that match is
in range and carries the value. -/
theorem lastMatchIdx_spec (vals : List Buf) (leaf : Buf) (hmem : leaf ∈ vals) :
    ∃ i : Nat, lastMatchIdx vals leaf = some i ∧ i < vals.length ∧
      vals.getD i [] = leaf := by
  obtain ⟨⟨j, hj⟩, hget⟩ := List.mem_iff_get.mp hmem
  have hPj : j ∈ (List.range vals.length).filter
      (fun k => vals.getD k [] = leaf) := by
    rw [List.mem_filter, List.mem_range]
    refine ⟨hj, ?_⟩
    rw [← get_eq_getD hj ([] : Buf)]
    simp only [decide_eq_true_eq]
    exact hget
  have hne : (List.range vals.length).filter (fun k => vals.getD k [] = leaf) ≠ [] :=
    List.ne_nil_of_mem hPj
  obtain ⟨i, hi⟩ : ∃ i, ((List.range vals.length).filter
      (fun k => vals.getD k [] = leaf)).getLast? = some i := by
    rw [List.getLast?_eq_getLast_of_ne_nil hne]
    exact ⟨_, rfl⟩
  have hmem2 : i ∈ (List.range vals.length).filter (fun k => vals.getD k [] = leaf) := by
    have := List.mem_getLast?_eq_getLast (l := (List.range vals.length).filter
      (fun k => vals.getD k [] = leaf)) (x := i) (by rw [hi]; rfl)
    obtain ⟨h9, hx⟩ := this
    rw [hx]
    exact List.getLast_mem h9
  rw [List.mem_filter, List.mem_range] at hmem2
  exact ⟨i, hi, hmem2.1, by simpa using hmem2.2⟩

/-- On an even first layer every in-range index has an in-bounds sibling, so
the generated proof is non-empty. -/
theorem proofLoopPlain_cons_ne_nil (vals : List Buf) (rest : List (List Buf))
    (idx : Nat) (hidx : idx < vals.length) (heven : vals.length % 2 = 0) :
    MerkleTree.proofLoopPlain (vals :: rest) idx ≠ [] := by
  rw [MerkleTree.proofLoopPlain]
  have hin : (if idx % 2 = 1 then idx - 1 else idx + 1) < vals.length := by
    by_cases hpar : idx % 2 = 1 <;> simp [hpar] <;> omega
  rw [dif_pos hin]
  simp

theorem createHashesGo_len_cons (hash : Buf → Buf) (btc sp dup : Bool)
    (vals : List Buf) (hlen2 : 2 ≤ vals.length) :
    createHashesGo hash btc sp dup vals.length vals =
      vals :: createHashesGo hash btc sp dup (vals.length - 1)
        (createHashesStep hash btc sp dup vals) := by
  have hg : vals.length = (vals.length - 1) + 1 := by omega
  conv_lhs => rw [hg]
  rw [createHashesGo, if_neg (by omega)]

/-- `verify` on buffer target and root with a non-empty proof list is the fold
of `verifyStep` compared against the root bytes. -/
theorem MerkleVerify_buf (hash : Buf → Buf) (btc sp : Bool) (P : List ProofElem)
    (hP : P ≠ []) (t r : Buf) :
    MerkleVerify hash btc sp (some P) (.bufV t) (.bufV r) =
      (P.foldlM (verifyStep hash btc sp) t).map (fun final => decide (final = r)) := by
  unfold MerkleVerify
  rw [show bufferify (.bufV t) = .ok (.bufV t) from rfl,
    show bufferify (.bufV r) = .ok (.bufV r) from rfl]
  show (if P = [] ∨ _ ∨ _ then _ else _) = _
  rw [if_neg (by simp [hP, JSVal.truthy])]
  cases hF : P.foldlM (verifyStep hash btc sp) t with
  | ok final => rfl
  | error e => rfl

/-- C2 (corrected, see the counterexample): on a tree built with a
`createLeaves` leaf augmentation — so the omitted-index search can read
`.value` — holding the promotion policy (`duplicateOdd` off, non-Bitcoin) and
an even number of leaves, so that no augmented object is promoted into a
deeper layer, verification of the generated proof succeeds for every leaf
value present in the tree, with the same hash function and `sortPairs` policy
throughout: `verify(getProof(L), L, getRoot()) = true`. -/
theorem claim_C2 (hash : Buf → Buf) (sp : Bool) (vals : List Buf) (leaf : Buf)
    (hne : vals ≠ []) (heven : vals.length % 2 = 0) (hmem : leaf ∈ vals) :
    MerkleVerify hash false sp
      (some (MerkleTreeCL.getProof hash sp false vals leaf none))
      (.bufV leaf) (.bufV (MerkleTreeCL.getRootVal hash sp false vals).bytes) =
      .ok true := by
  have hlen2 : 2 ≤ vals.length := by
    have : 0 < vals.length := List.length_pos.mpr hne
    omega
  obtain ⟨i, hlast, hilt, hival⟩ := lastMatchIdx_spec vals leaf hmem
  set rest := createHashesGo hash false sp false (vals.length - 1)
    (createHashesStep hash false sp false vals) with hrest
  have hgo : createHashesGo hash false sp false vals.length vals = vals :: rest :=
    createHashesGo_len_cons hash false sp false vals hlen2
  have hproof : MerkleTreeCL.getProof hash sp false vals leaf none =
      MerkleTree.proofLoopPlain (createHashesGo hash false sp false vals.length vals) i := by
    unfold MerkleTreeCL.getProof
    rw [findLastIdx_eq, hlast]
    rw [if_neg (by omega : ¬ ((i : Int) ≤ -1))]
    rw [Int.toNat_natCast]
    rw [layersCL_even hash sp false vals hne heven, ← hrest, proofLoopCL_first, hgo]
  have hPne : MerkleTree.proofLoopPlain
      (createHashesGo hash false sp false vals.length vals) i ≠ [] := by
    rw [hgo]
    exact proofLoopPlain_cons_ne_nil vals rest i hilt heven
  rw [hproof, MerkleVerify_buf hash false sp _ hPne]
  have hfold := verify_path_go hash sp vals.length vals i hilt le_rfl
  rw [hival] at hfold
  rw [hfold]
  rw [getRootVal_even hash sp false vals hne heven]
  simp [Except.map]

theorem claim_C2_witness :
    (([[1], [2], [3], [4]] : List Buf) ≠ [] ∧
      ([[1], [2], [3], [4]] : List Buf).length % 2 = 0 ∧
      ([3] : Buf) ∈ ([[1], [2], [3], [4]] : List Buf)) ∧
    MerkleVerify toyHash false false
      (some (MerkleTreeCL.getProof toyHash false false [[1], [2], [3], [4]] [3] none))
      (.bufV [3])
      (.bufV (MerkleTreeCL.getRootVal toyHash false false [[1], [2], [3], [4]]).bytes) =
      .ok true :=
  ⟨⟨by decide, by decide, by decide⟩,
    claim_C2 toyHash false [[1], [2], [3], [4]] [3] (by decide) (by decide) (by decide)⟩

/-- C2 counterexample: as stated over every tree and policy the claim is
false.  On a plain two-leaf tree (the default constructor path),
`getProof(L)` itself throws — the search loop reads `.value` of a plain
buffer — so no proof can even be produced; on a `createLeaves` tree of three
leaves with `duplicateOdd` enabled throughout, the generated proof for the
last leaf omits the self-pair step and verification returns `false`; and
with the default promotion policy on three augmented leaves, the proof for
the first leaf embeds the promoted augmented object and verification throws
on the non-buffer. -/
theorem claim_C2_counterexample :
    MerkleTree.getProof toyHash {} [[0], [1]] [0] none = .error () ∧
    MerkleVerify toyHash false false
      (some (MerkleTreeCL.getProof toyHash false true [[1], [2], [3]] [3] none))
      (.bufV [3])
      (.bufV (MerkleTreeCL.getRootVal toyHash false true [[1], [2], [3]]).bytes) =
      .ok false ∧
    MerkleVerify toyHash false false
      (some (MerkleTreeCL.getProof toyHash false false [[1], [2], [3]] [1] none))
      (.bufV [1])
      (.bufV (MerkleTreeCL.getRootVal toyHash false false [[1], [2], [3]]).bytes) =
      .error () := by
  refine ⟨by decide, by decide, by decide⟩

/-! ## The incremental builder (`MerkleFromLeaves`)

The builder's constructor stores the leaves, the hash adapter, and the
options but applies none of them: `hashLeaves`, `sortLeaves` and
`isBitcoinTree` are never consulted by `next`, which reads only `sortPairs`
and `duplicateOdd`.  A node object is modelled by which of its two data
properties exist: `value` (assigned by `_createParent`, probed with
`hasOwnProperty`) and `leaf.data` (present on a wrapped leaf).  The
`left`/`right`/`parent` references are written but never read after the
parent's digest is computed, so they are dropped.  Array accesses that would
dereference `undefined` in JavaScript are modelled as errors. -/

structure MNode where
  value : Option Buf
  leafData : Option Buf
deriving DecidableEq, Repr

/-- `x.value ? x.value : x.leaf.data` as read by `_createParent`; every node
the builder creates carries a computed `value` or wraps a leaf. -/
def MNode.digest (n : MNode) : Buf :=
  match n.value with
  | some v => v
  | none => n.leafData.getD []

/-- `hasOwnProperty("value")`. -/
def MNode.isInternal (n : MNode) : Bool := n.value.isSome

/-- The mutable iterator state: `this.leaves` (leaf data bytes; `duplicateOdd`
appends to it), `this.layers`, the cursor `(i, j)`, and the completion flag. -/
structure IncState where
  leaves : List Buf
  layers : List (List MNode)
  i : Nat
  j : Nat
  done : Bool
deriving DecidableEq, Repr

/-- One `IteratorResult`: a node-valued step carries the node and its
`(depth, index)`; the exhausted iterator reports `done` with a `null`
value. -/
structure NextRes where
  value : Option (MNode × Nat × Nat)
  done : Bool
deriving DecidableEq, Repr

/-- `this.layers[i].push(n)`: an error when the row is `undefined`. -/
def rowPush (layers : List (List MNode)) (i : Nat) (n : MNode) :
    Except Unit (List (List MNode)) :=
  match layers[i]? with
  | some row => .ok (layers.set i (row ++ [n]))
  | none => .error ()

/-- `this.layers[i].pop()`: an error when the row is `undefined` or empty
(popping an empty row returns `undefined`, which the caller immediately feeds
to `isMerkleLeaf`, throwing). -/
def rowPop (layers : List (List MNode)) (i : Nat) :
    Except Unit (MNode × List (List MNode)) :=
  match layers[i]? with
  | some row =>
    match row.getLast? with
    | some last => .ok (last, layers.set i row.dropLast)
    | none => .error ()
  | none => .error ()

/-- The `curIsLeaf` probe at the top of `next`: true when the row is missing,
the cursor is past its end, or the node has no computed `value`. -/
def curIsLeaf (s : IncState) : Bool :=
  match s.layers[s.i]? with
  | none => true
  | some row =>
    match row[s.j]? with
    | none => true
    | some n => !n.isInternal

/-- `_createParent`: pair the nodes at `(i, j−1)` and `(i, j)`, push a fresh
row when layer `i` is the last, and append the parent, whose digest combines
the children's data (sorted when `sortPairs`) under one hash. -/
def createParent (hash : Buf → Buf) (sp : Bool) (s : IncState) :
    Except Unit IncState :=
  match s.layers[s.i]? with
  | none => .error ()
  | some row =>
    match row[s.j - 1]?, row[s.j]? with
    | some left, some right =>
      let layers1 := if s.layers.length = s.i + 1 then s.layers ++ [[]] else s.layers
      let parent : MNode := ⟨some (hash (combineData sp left.digest right.digest)), none⟩
      (rowPush layers1 (s.i + 1) parent).map (fun layers2 => { s with layers := layers2 })
    | _, _ => .error ()

/-- `_createRightLeaf`: wrap and push the right-hand leaf on layer 0; on
deeper layers the probed element is a node, not a leaf, and nothing
happens. -/
def createRightLeaf (s : IncState) : Except Unit IncState :=
  if s.i = 0 then
    match s.leaves[s.j]? with
    | some d => (rowPush s.layers 0 ⟨none, some d⟩).map (fun ls => { s with layers := ls })
    | none => .error ()
  else
    match s.layers[s.i]? with
    | some row =>
      match row[s.j]? with
      | some _ => .ok s
      | none => .error ()
    | none => .error ()

/-- `_moveRight`: record the node under the cursor and advance — to the next
column, or to the start of the next layer at the end of this one (layer 0
measures its end against `this.leaves`).  Both arms of its `curIsLeaf` test
are identical, so the probe is not repeated here. -/
def moveRight (s : IncState) : Except Unit (MNode × IncState) :=
  match s.layers[s.i]? with
  | none => .error ()
  | some row =>
    match row[s.j]? with
    | none => .error ()
    | some n =>
      let lastIdx := (if s.i = 0 then s.leaves.length else row.length) - 1
      if s.j = lastIdx then .ok (n, { s with i := s.i + 1, j := 0 })
      else .ok (n, { s with j := s.j + 1 })

/-- Outcome of one pass through the body of `next`: a returned
`IteratorResult`, or the tail call `return this.next()` taken by the two
promotion branches. -/
inductive StepOut where
  | res (r : NextRes) (s : IncState)
  | cont (s : IncState)
deriving DecidableEq, Repr

/-- The body of `MerkleFromLeaves.next` (second source file, lines 89-223),
one branch for one source branch; the promotion branches surface as
`StepOut.cont`. -/
def nextInner (hash : Buf → Buf) (sp dup : Bool) (s : IncState) :
    Except Unit StepOut :=
  let depth := s.i
  let index := s.j
  if s.j % 2 = 0 then
    if curIsLeaf s = false then
      match s.layers[s.i]? with
      | none => .error ()
      | some row =>
        if row.length = 1 then
          if s.done then .ok (.res ⟨none, true⟩ s)
          else
            match row[s.j]? with
            | some node => .ok (.res ⟨some (node, depth, index), false⟩ { s with done := true })
            | none => .error ()
        else if s.j + 1 = row.length ∧ row.length % 2 = 1 then
          if dup then
            match row[s.j]? with
            | some node =>
              (rowPush s.layers s.i node).bind (fun layers1 =>
                (createParent hash sp { s with layers := layers1, j := s.j + 1 }).map
                  (fun s2 => .res ⟨some (node, depth, index), false⟩ s2))
            | none => .error ()
          else
            (rowPop s.layers s.i).bind (fun pr =>
              (rowPush pr.2 (s.i + 1) pr.1).map (fun layers2 =>
                .cont { s with layers := layers2, j := 0, i := s.i + 1 }))
        else
          match row[s.j]? with
          | some node =>
            (createParent hash sp { s with j := s.j + 1 }).map (fun s2 =>
              .res ⟨some (node, depth, index), false⟩ s2)
          | none => .error ()
    else
      (if s.i = 0 then
          (Except.ok (decide (s.j + 1 = s.leaves.length ∧ s.leaves.length % 2 = 1)) :
            Except Unit Bool)
        else
          match s.layers[s.i]? with
          | some row => Except.ok (decide (s.j + 1 = row.length ∧ row.length % 2 = 1))
          | none => Except.error ()).bind (fun oddEnd =>
      if oddEnd then
        if dup then
          if s.i = 0 then
            match s.leaves[s.j]? with
            | some d =>
              let node : MNode := ⟨none, some d⟩
              (rowPush s.layers 0 node).bind (fun layers1 =>
                let sMid : IncState :=
                  { s with leaves := s.leaves ++ [d], layers := layers1, j := s.j + 1 }
                (createRightLeaf sMid).bind (fun s2 =>
                  (createParent hash sp s2).map (fun s3 =>
                    .res ⟨some (node, depth, index), false⟩ s3)))
            | none => .error ()
          else
            match s.layers[s.i]? with
            | none => .error ()
            | some row =>
              match row[s.j]? with
              | some n =>
                (rowPush s.layers s.i n).bind (fun layers1 =>
                  (rowPush layers1 s.i n).bind (fun layers2 =>
                    (createRightLeaf { s with layers := layers2, j := s.j + 1 }).bind
                      (fun s2 =>
                        (createParent hash sp s2).map (fun s3 =>
                          .res ⟨some (n, depth, index), false⟩ s3))))
              | none => .error ()
        else
          if s.i = 0 then
            match s.leaves[s.j]? with
            | some d =>
              (rowPush s.layers (s.i + 1) ⟨none, some d⟩).map (fun layers1 =>
                .cont { s with layers := layers1, j := 0, i := s.i + 1 })
            | none => .error ()
          else
            (rowPop s.layers s.i).bind (fun pr =>
              (rowPush pr.2 (s.i + 1) pr.1).map (fun layers2 =>
                .cont { s with layers := layers2, j := 0, i := s.i + 1 }))
      else
        if s.i = 0 then
          match s.leaves[s.j]? with
          | some d =>
            let layers0 := if s.layers.isEmpty then [[]] else s.layers
            let node : MNode := ⟨none, some d⟩
            (rowPush layers0 0 node).bind (fun layers1 =>
              (createRightLeaf { s with layers := layers1, j := s.j + 1 }).bind (fun s2 =>
                (createParent hash sp s2).map (fun s3 =>
                  .res ⟨some (node, depth, index), false⟩ s3)))
          | none => .error ()
        else
          match s.layers[s.i]? with
          | none => .error ()
          | some row =>
            match row[s.j]? with
            | some n =>
              (createRightLeaf { s with j := s.j + 1 }).bind (fun s2 =>
                (createParent hash sp s2).map (fun s3 =>
                  .res ⟨some (n, depth, index), false⟩ s3))
            | none => .error ())
  else
    (moveRight s).map (fun pr => .res ⟨some (pr.1, depth, index), false⟩ pr.2)

/-- The tail-call chain of `next`: each `cont` re-enters the body with `i`
one larger on an unchanged number of rows, so the chain length is bounded by
the row count; the fuel only makes the recursion structural. -/
def nextFuel (hash : Buf → Buf) (sp dup : Bool) :
    Nat → IncState → Except Unit (NextRes × IncState)
  | 0, _ => .error ()
  | g + 1, s =>
    (nextInner hash sp dup s).bind (fun o =>
      match o with
      | .res r s2 => .ok (r, s2)
      | .cont s2 => nextFuel hash sp dup g s2)

/-- `MerkleFromLeaves.next`. -/
def MerkleNext (hash : Buf → Buf) (sp dup : Bool) (s : IncState) :
    Except Unit (NextRes × IncState) :=
  nextFuel hash sp dup (s.layers.length + 1) s

/-- Drive the iterator to completion, collecting the digests of the emitted
nodes; stops at the first `done` result and returns the final state. -/
def runGo (hash : Buf → Buf) (sp dup : Bool) :
    Nat → IncState → Except Unit (List Buf × IncState)
  | 0, _ => .error ()
  | f + 1, s =>
    (MerkleNext hash sp dup s).bind (fun rs =>
      if rs.1.done then .ok ([], rs.2)
      else
        match rs.1.value with
        | some nd =>
          (runGo hash sp dup f rs.2).map (fun es => (nd.1.digest :: es.1, es.2))
        | none => .error ())

/-- The iterator as constructed on a leaf list, run to completion;
`6·n + 6` driver steps always suffice. -/
def runIncremental (hash : Buf → Buf) (sp dup : Bool) (lv : List Buf) :
    Except Unit (List Buf × IncState) :=
  runGo hash sp dup (6 * lv.length + 6) ⟨lv, [], 0, 0, false⟩

/-- Digests emitted while the iterator crosses one layer: every node of the
layer in order, except that a promoted lone node is not emitted on this layer
(it surfaces one layer up), while `duplicateOdd` emits the trailing node twice
(once as the left of its self-pair, once as the pushed copy). -/
def rowEmitsFrom (dup : Bool) (row : List Buf) : List Buf :=
  if row.length % 2 = 1 then
    (if dup then row ++ [row.getLastD []] else row.dropLast)
  else row

/-- The full emission sequence of the incremental builder over a layer's
digests, layer by layer up to the root (`gas` bounds the layer count as in
`createHashesGo`). -/
def incEmitsGo (hash : Buf → Buf) (sp dup : Bool) : Nat → List Buf → List Buf
  | 0, row => row
  | gas + 1, row =>
    if row.length ≤ 1 then row
    else rowEmitsFrom dup row ++
      incEmitsGo hash sp dup gas (createHashesStep hash false sp dup row)

theorem incEmitsGo_gas (hash : Buf → Buf) (sp dup : Bool) :
    ∀ (g1 g2 : Nat) (row : List Buf), row.length ≤ g1 → row.length ≤ g2 →
      incEmitsGo hash sp dup g1 row = incEmitsGo hash sp dup g2 row := by
  intro g1
  induction g1 with
  | zero =>
    intro g2 row h1 h2
    have : row = [] := List.eq_nil_of_length_eq_zero (by omega)
    subst this
    cases g2 with
    | zero => rfl
    | succ b => simp [incEmitsGo]
  | succ a ih =>
    intro g2 row h1 h2
    by_cases hle : row.length ≤ 1
    · cases g2 with
      | zero =>
        have : row = [] := List.eq_nil_of_length_eq_zero (by omega)
        subst this
        simp [incEmitsGo]
      | succ b => simp [incEmitsGo, hle]
    · have hlen2 : 2 ≤ row.length := by omega
      cases g2 with
      | zero => omega
      | succ b =>
        rw [incEmitsGo, incEmitsGo, if_neg hle, if_neg hle]
        have hstep : (createHashesStep hash false sp dup row).length = (row.length + 1) / 2 :=
          createHashesStep_length hash false sp dup row
        rw [ih b (createHashesStep hash false sp dup row) (by omega) (by omega)]

theorem incEmitsGo_ne_nil (hash : Buf → Buf) (sp dup : Bool) :
    ∀ (gas : Nat) (row : List Buf), row ≠ [] →
      incEmitsGo hash sp dup gas row ≠ []
  | 0, row, h => h
  | gas + 1, row, h => by
    rw [incEmitsGo]
    by_cases hle : row.length ≤ 1
    · simpa [hle] using h
    · rw [if_neg hle]
      have hstep_ne : createHashesStep hash false sp dup row ≠ [] := by
        intro hnil
        have := createHashesStep_length hash false sp dup row
        rw [hnil] at this
        simp at this
        omega
      have := incEmitsGo_ne_nil hash sp dup gas _ hstep_ne
      intro hx
      exact this (List.append_eq_nil.mp hx).2

/-- The root — the single node of the final layer — is the last digit the
iterator emits. -/
theorem incEmitsGo_getLast (hash : Buf → Buf) (sp dup : Bool) :
    ∀ (gas : Nat) (row : List Buf), row ≠ [] → row.length ≤ gas →
      (incEmitsGo hash sp dup gas row).getLast? =
        some (((createHashesGo hash false sp dup gas row).getLastD []).headD [])
  | 0, row, hne, hgas => by
    exact absurd (List.eq_nil_of_length_eq_zero (by omega)) hne
  | gas + 1, row, hne, hgas => by
    rw [incEmitsGo, createHashesGo]
    by_cases hle : row.length ≤ 1
    · rw [if_pos hle, if_pos hle]
      have hlen1 : row.length = 1 := by
        have : 0 < row.length := List.length_pos.mpr hne
        omega
      match row, hlen1 with
      | [a], _ => rfl
    · rw [if_neg hle, if_neg hle]
      have hstep_ne : createHashesStep hash false sp dup row ≠ [] := by
        intro hnil
        have := createHashesStep_length hash false sp dup row
        rw [hnil] at this
        simp at this
        omega
      have hstep : (createHashesStep hash false sp dup row).length = (row.length + 1) / 2 :=
        createHashesStep_length hash false sp dup row
      rw [List.getLast?_append_of_ne_nil _ (incEmitsGo_ne_nil hash sp dup gas _ hstep_ne)]
      rw [incEmitsGo_getLast hash sp dup gas _ hstep_ne (by omega)]
      rw [getLastD_cons_ne_nil _ (createHashesGo_ne_nil hash false sp dup gas _) []]

/-- Under the promotion policy the iterator makes exactly `2·n − 1`
node-valued steps over `n` starting nodes. -/
theorem incEmitsGo_length_default (hash : Buf → Buf) (sp : Bool) :
    ∀ (gas : Nat) (row : List Buf), 1 ≤ row.length → row.length ≤ gas →
      (incEmitsGo hash sp false gas row).length = 2 * row.length - 1
  | 0, row, h1, hgas => by omega
  | gas + 1, row, h1, hgas => by
    rw [incEmitsGo]
    by_cases hle : row.length ≤ 1
    · rw [if_pos hle]
      omega
    · rw [if_neg hle]
      have hstep : (createHashesStep hash false sp false row).length = (row.length + 1) / 2 :=
        createHashesStep_length hash false sp false row
      have ih := incEmitsGo_length_default hash sp gas
        (createHashesStep hash false sp false row) (by omega) (by omega)
      rw [List.length_append, ih, hstep]
      unfold rowEmitsFrom
      by_cases hodd : row.length % 2 = 1
      · rw [if_pos hodd, if_neg (by simp : ¬ (false : Bool) = true)]
        simp only [List.length_dropLast]
        omega
      · rw [if_neg hodd]
        omega

/-- A loose fuel bound: the emission count plus one driver step never exceeds
`4·n`. -/
theorem incEmitsGo_length_le (hash : Buf → Buf) (sp dup : Bool) :
    ∀ (gas : Nat) (row : List Buf), 1 ≤ row.length → row.length ≤ gas →
      (incEmitsGo hash sp dup gas row).length + 1 ≤ 4 * row.length
  | 0, row, h1, hgas => by omega
  | gas + 1, row, h1, hgas => by
    rw [incEmitsGo]
    by_cases hle : row.length ≤ 1
    · rw [if_pos hle]
      omega
    · rw [if_neg hle]
      have hstep : (createHashesStep hash false sp dup row).length = (row.length + 1) / 2 :=
        createHashesStep_length hash false sp dup row
      have ih := incEmitsGo_length_le hash sp dup gas
        (createHashesStep hash false sp dup row) (by omega) (by omega)
      rw [List.length_append]
      have hprefix : (rowEmitsFrom dup row).length ≤ row.length + 1 := by
        unfold rowEmitsFrom
        by_cases hodd : row.length % 2 = 1 <;> by_cases hd : dup <;>
          (simp [hodd, hd]
           try omega)
      omega

theorem getElem?_append_len {α : Type} :
    ∀ (L : List α) (x : α) (t : List α), (L ++ x :: t)[L.length]? = some x
  | [], x, t => by simp
  | a :: L, x, t => by
    simpa using getElem?_append_len L x t

theorem getElem?_append_len1 {α : Type} :
    ∀ (L : List α) (x y : α) (t : List α), (L ++ x :: y :: t)[L.length + 1]? = some y
  | [], x, y, t => by simp
  | a :: L, x, y, t => by
    simpa [Nat.add_right_comm] using getElem?_append_len1 L x y t

theorem set_append_len {α : Type} :
    ∀ (L : List α) (x : α) (t : List α) (x2 : α),
      (L ++ x :: t).set L.length x2 = L ++ x2 :: t
  | [], x, t, x2 => rfl
  | a :: L, x, t, x2 => by
    simp [set_append_len L x t x2]

theorem set_append_len1 {α : Type} :
    ∀ (L : List α) (x y : α) (t : List α) (y2 : α),
      (L ++ x :: y :: t).set (L.length + 1) y2 = L ++ x :: y2 :: t
  | [], x, y, t, y2 => rfl
  | a :: L, x, y, t, y2 => by
    simp [Nat.add_right_comm, set_append_len1 L x y t y2]

theorem rowPush_at (L : List (List MNode)) (row : List MNode) (t : List (List MNode))
    (n : MNode) : rowPush (L ++ row :: t) L.length n = .ok (L ++ (row ++ [n]) :: t) := by
  unfold rowPush
  rw [getElem?_append_len]
  show Except.ok ((L ++ row :: t).set L.length (row ++ [n])) = _
  rw [set_append_len]

theorem rowPush_at1 (L : List (List MNode)) (row part : List MNode)
    (t : List (List MNode)) (n : MNode) :
    rowPush (L ++ row :: part :: t) (L.length + 1) n =
      .ok (L ++ row :: (part ++ [n]) :: t) := by
  unfold rowPush
  rw [getElem?_append_len1]
  show Except.ok ((L ++ row :: part :: t).set (L.length + 1) (part ++ [n])) = _
  rw [set_append_len1]

theorem rowPop_at (L : List (List MNode)) (row : List MNode) (t : List (List MNode))
    (last : MNode) (hlast : row.getLast? = some last) :
    rowPop (L ++ row :: t) L.length = .ok (last, L ++ row.dropLast :: t) := by
  unfold rowPop
  rw [getElem?_append_len]
  show (match row.getLast? with
    | some last => Except.ok (last, (L ++ row :: t).set L.length row.dropLast)
    | none => Except.error ()) = _
  rw [hlast, set_append_len]

theorem rowPush_ok (layers : List (List MNode)) (i : Nat) (n : MNode)
    (out : List (List MNode)) (h : rowPush layers i n = .ok out) :
    i < layers.length ∧ out.length = layers.length := by
  unfold rowPush at h
  cases hg : layers[i]? with
  | none => rw [hg] at h; cases h
  | some row =>
    rw [hg] at h
    dsimp only at h
    have hi : i < layers.length := by
      by_contra hni
      rw [List.getElem?_eq_none (by omega)] at hg
      cases hg
    injection h with h2
    rw [← h2]
    simp [hi]

theorem rowPop_ok (layers : List (List MNode)) (i : Nat) (x : MNode)
    (out : List (List MNode)) (h : rowPop layers i = .ok (x, out)) :
    i < layers.length ∧ out.length = layers.length := by
  unfold rowPop at h
  cases hg : layers[i]? with
  | none => rw [hg] at h; cases h
  | some row =>
    rw [hg] at h
    dsimp only at h
    cases hl : row.getLast? with
    | none => rw [hl] at h; cases h
    | some last =>
      rw [hl] at h
      have hi : i < layers.length := by
        by_contra hni
        rw [List.getElem?_eq_none (by omega)] at hg
        cases hg
      injection h with h2
      have : out = layers.set i row.dropLast := congrArg Prod.snd h2.symm
      rw [this]
      simp [hi]

/-- A tail-call (`return this.next()`) always moves to the start of the next
layer without changing the number of rows, and lands on an existing row. -/
theorem nextInner_cont (hash : Buf → Buf) (sp dup : Bool) (s s' : IncState)
    (h : nextInner hash sp dup s = .ok (.cont s')) :
    s'.layers.length = s.layers.length ∧ s'.i = s.i + 1 ∧
      s'.i < s'.layers.length ∧ s'.j = 0 := by
  unfold nextInner at h
  simp only [Except.bind, Except.map] at h
  repeat' split at h
  all_goals try cases h
  · rename_i x1 v1 heq1 x2 v2 heq2
    obtain ⟨hi1, hlen1⟩ := rowPop_ok _ _ v1.1 v1.2 heq1
    obtain ⟨hi2, hlen2⟩ := rowPush_ok _ _ _ _ heq2
    exact ⟨by dsimp only; omega, rfl, by dsimp only; omega, rfl⟩
  · rename_i x1 v1 heq1 x2 v2 heq2
    obtain ⟨hi2, hlen2⟩ := rowPush_ok _ _ _ _ heq2
    exact ⟨by dsimp only; omega, rfl, by dsimp only; omega, rfl⟩
  · rename_i x1 v1 heq1 x2 v2 heq2
    obtain ⟨hi1, hlen1⟩ := rowPop_ok _ _ v1.1 v1.2 heq1
    obtain ⟨hi2, hlen2⟩ := rowPush_ok _ _ _ _ heq2
    exact ⟨by dsimp only; omega, rfl, by dsimp only; omega, rfl⟩

theorem nextFuel_irrel (hash : Buf → Buf) (sp dup : Bool) :
    ∀ g1 g2 s, s.layers.length - s.i < g1 → s.layers.length - s.i < g2 →
      nextFuel hash sp dup g1 s = nextFuel hash sp dup g2 s := by
  intro g1
  induction g1 with
  | zero => intro g2 s h1 _; omega
  | succ a ih =>
    intro g2 s h1 h2
    cases g2 with
    | zero => omega
    | succ b =>
      rw [nextFuel, nextFuel]
      cases hn : nextInner hash sp dup s with
      | error e => rfl
      | ok o =>
        cases o with
        | res r s2 => rfl
        | cont s2 =>
          simp only [Except.bind]
          obtain ⟨hlen, hi, hlt, hj⟩ := nextInner_cont hash sp dup s s2 hn
          exact ih b s2 (by omega) (by omega)

theorem MerkleNext_res (hash : Buf → Buf) (sp dup : Bool) (s : IncState)
    (r : NextRes) (s2 : IncState) (h : nextInner hash sp dup s = .ok (.res r s2)) :
    MerkleNext hash sp dup s = .ok (r, s2) := by
  rw [MerkleNext, nextFuel, h]
  rfl

theorem MerkleNext_cont (hash : Buf → Buf) (sp dup : Bool) (s s2 : IncState)
    (h : nextInner hash sp dup s = .ok (.cont s2)) :
    MerkleNext hash sp dup s = MerkleNext hash sp dup s2 := by
  obtain ⟨hlen, hi, hlt, hj⟩ := nextInner_cont hash sp dup s s2 h
  rw [MerkleNext, nextFuel, h, MerkleNext]
  simp only [Except.bind]
  exact nextFuel_irrel hash sp dup _ _ s2 (by omega) (by omega)

theorem runGo_step (hash : Buf → Buf) (sp dup : Bool) (s s2 : IncState)
    (nd : MNode) (p : Nat × Nat) (f : Nat)
    (h : MerkleNext hash sp dup s = .ok (⟨some (nd, p), false⟩, s2)) :
    runGo hash sp dup (f + 1) s =
      (runGo hash sp dup f s2).map (fun es => (nd.digest :: es.1, es.2)) := by
  rw [runGo, h]
  rfl

theorem runGo_done (hash : Buf → Buf) (sp dup : Bool) (s s2 : IncState)
    (v : Option (MNode × Nat × Nat)) (f : Nat)
    (h : MerkleNext hash sp dup s = .ok (⟨v, true⟩, s2)) :
    runGo hash sp dup (f + 1) s = .ok ([], s2) := by
  rw [runGo, h]
  rfl

/-- Layer-0 nodes: wrapped leaves, no computed `value`. -/
def leafNodes (lv : List Buf) : List MNode := lv.map (fun d => ⟨none, some d⟩)

/-- Parent nodes as `_createParent` builds them: a `value`, no leaf data. -/
def internalNodes (ds : List Buf) : List MNode := ds.map (fun d => ⟨some d, none⟩)

/-- The digests a row of nodes presents to `_createParent`. -/
def digestsOf (row : List MNode) : List Buf := row.map MNode.digest

theorem digestsOf_leafNodes (lv : List Buf) : digestsOf (leafNodes lv) = lv := by
  simp [digestsOf, leafNodes, MNode.digest, Function.comp_def]

theorem digestsOf_internalNodes (ds : List Buf) : digestsOf (internalNodes ds) = ds := by
  simp [digestsOf, internalNodes, MNode.digest, Function.comp_def]

theorem take_two_more {α : Type} (l : List α) (n : Nat) (d : α) (h : n + 1 < l.length) :
    l.take (n + 2) = l.take n ++ [l.getD n d, l.getD (n + 1) d] := by
  have h1 : l[n]? = some (l.getD n d) := by
    rw [List.getElem?_eq_getElem (by omega)]
    rw [List.getD_eq_getElem?_getD, List.getElem?_eq_getElem (by omega)]
    rfl
  have h2 : l[n+1]? = some (l.getD (n + 1) d) := by
    rw [List.getElem?_eq_getElem h]
    rw [List.getD_eq_getElem?_getD, List.getElem?_eq_getElem h]
    rfl
  rw [show n + 2 = (n + 1) + 1 by rfl, List.take_succ, List.take_succ, h1, h2]
  simp

theorem createHashesStep_snoc2 (hash : Buf → Buf) (sp dup : Bool) :
    ∀ (t : Nat) (X : List Buf) (a b : Buf), X.length = 2 * t →
      createHashesStep hash false sp dup (X ++ [a, b]) =
        createHashesStep hash false sp dup X ++ [pairHash hash false sp a b] := by
  intro t
  induction t with
  | zero =>
    intro X a b hX
    have : X = [] := List.eq_nil_of_length_eq_zero (by omega)
    subst this
    rfl
  | succ u ih =>
    intro X a b hX
    match X with
    | [] => simp at hX
    | [x] => simp at hX; omega
    | x :: y :: X' =>
      have : X'.length = 2 * u := by simp at hX; omega
      simp only [List.cons_append, createHashesStep]
      exact congrArg (fun z => pairHash hash false sp x y :: z) (ih X' a b this)

theorem createHashesStep_snoc1 (hash : Buf → Buf) (sp dup : Bool) :
    ∀ (t : Nat) (X : List Buf) (a : Buf), X.length = 2 * t →
      createHashesStep hash false sp dup (X ++ [a]) =
        createHashesStep hash false sp dup X ++
          (if dup then [pairHash hash false sp a a] else [a]) := by
  intro t
  induction t with
  | zero =>
    intro X a hX
    have : X = [] := List.eq_nil_of_length_eq_zero (by omega)
    subst this
    simp [createHashesStep]
  | succ u ih =>
    intro X a hX
    match X with
    | [] => simp at hX
    | [x] => simp at hX; omega
    | x :: y :: X' =>
      have : X'.length = 2 * u := by simp at hX; omega
      simp only [List.cons_append, createHashesStep]
      exact congrArg (fun z => pairHash hash false sp x y :: z) (ih X' a this)

theorem nextInner_pair_mid (hash : Buf → Buf) (sp dup : Bool) (lv : List Buf)
    (L : List (List MNode)) (R P : List MNode) (j : Nat) (n n2 : MNode)
    (hj : j % 2 = 0) (h1 : R.length ≠ 1)
    (hm : ¬(j + 1 = R.length ∧ R.length % 2 = 1))
    (hn : R[j]? = some n) (hni : n.isInternal = true)
    (hn2 : R[j+1]? = some n2) :
    nextInner hash sp dup ⟨lv, L ++ [R, P], L.length, j, false⟩ =
      .ok (.res ⟨some (n, L.length, j), false⟩
        ⟨lv, L ++ [R, P ++ [⟨some (pairHash hash false sp n.digest n2.digest), none⟩]],
          L.length, j + 1, false⟩) := by
  have hcur : curIsLeaf ⟨lv, L ++ [R, P], L.length, j, false⟩ = false := by
    unfold curIsLeaf
    dsimp only
    rw [getElem?_append_len]
    dsimp only
    rw [hn]
    dsimp only
    rw [hni]
    rfl
  unfold nextInner
  dsimp only
  rw [if_pos hj, if_pos hcur, getElem?_append_len]
  dsimp only
  rw [if_neg h1, if_neg hm, hn]
  dsimp only
  unfold createParent
  dsimp only
  rw [getElem?_append_len]
  dsimp only
  rw [Nat.add_sub_cancel, hn, hn2]
  dsimp only
  rw [if_neg (by simp)]
  rw [rowPush_at1]
  rfl

theorem nextInner_pair_first (hash : Buf → Buf) (sp dup : Bool) (lv : List Buf)
    (L : List (List MNode)) (R : List MNode) (n n2 : MNode)
    (h1 : R.length ≠ 1) (hm : ¬(0 + 1 = R.length ∧ R.length % 2 = 1))
    (hn : R[0]? = some n) (hni : n.isInternal = true)
    (hn2 : R[1]? = some n2) :
    nextInner hash sp dup ⟨lv, L ++ [R], L.length, 0, false⟩ =
      .ok (.res ⟨some (n, L.length, 0), false⟩
        ⟨lv, L ++ [R, [⟨some (pairHash hash false sp n.digest n2.digest), none⟩]],
          L.length, 0 + 1, false⟩) := by
  have hcur : curIsLeaf ⟨lv, L ++ [R], L.length, 0, false⟩ = false := by
    unfold curIsLeaf
    dsimp only
    rw [getElem?_append_len]
    dsimp only
    rw [hn]
    dsimp only
    rw [hni]
    rfl
  unfold nextInner
  dsimp only
  rw [if_pos (by omega : 0 % 2 = 0), if_pos hcur, getElem?_append_len]
  dsimp only
  rw [if_neg h1, if_neg hm, hn]
  dsimp only
  unfold createParent
  dsimp only
  rw [getElem?_append_len]
  dsimp only
  rw [Nat.add_sub_cancel, hn, hn2]
  dsimp only
  rw [if_pos (by simp)]
  have : (L ++ [R]) ++ [[]] = L ++ [R, ([] : List MNode)] := by simp
  rw [this, rowPush_at1]
  rfl

theorem nextInner_moveRight_mid (hash : Buf → Buf) (sp dup : Bool) (s : IncState)
    (row : List MNode) (n : MNode)
    (hj : s.j % 2 = 1) (hrow : s.layers[s.i]? = some row) (hn : row[s.j]? = some n)
    (hlast : s.j ≠ (if s.i = 0 then s.leaves.length else row.length) - 1) :
    nextInner hash sp dup s =
      .ok (.res ⟨some (n, s.i, s.j), false⟩ { s with j := s.j + 1 }) := by
  unfold nextInner
  rw [if_neg (by omega)]
  unfold moveRight
  rw [hrow]
  dsimp only
  rw [hn]
  dsimp only
  rw [if_neg hlast]
  rfl

theorem nextInner_moveRight_end (hash : Buf → Buf) (sp dup : Bool) (s : IncState)
    (row : List MNode) (n : MNode)
    (hj : s.j % 2 = 1) (hrow : s.layers[s.i]? = some row) (hn : row[s.j]? = some n)
    (hlast : s.j = (if s.i = 0 then s.leaves.length else row.length) - 1) :
    nextInner hash sp dup s =
      .ok (.res ⟨some (n, s.i, s.j), false⟩ { s with i := s.i + 1, j := 0 }) := by
  unfold nextInner
  rw [if_neg (by omega)]
  unfold moveRight
  rw [hrow]
  dsimp only
  rw [hn]
  dsimp only
  rw [if_pos hlast]
  rfl

theorem nextInner_root (hash : Buf → Buf) (sp dup : Bool) (lv : List Buf)
    (L : List (List MNode)) (nd : MNode) (hni : nd.isInternal = true) :
    nextInner hash sp dup ⟨lv, L ++ [[nd]], L.length, 0, false⟩ =
      .ok (.res ⟨some (nd, L.length, 0), false⟩
        ⟨lv, L ++ [[nd]], L.length, 0, true⟩) := by
  have hcur : curIsLeaf ⟨lv, L ++ [[nd]], L.length, 0, false⟩ = false := by
    unfold curIsLeaf
    dsimp only
    rw [getElem?_append_len]
    dsimp only
    rw [show ([nd] : List MNode)[0]? = some nd from rfl]
    dsimp only
    rw [hni]
    rfl
  unfold nextInner
  dsimp only
  rw [if_pos (by omega : 0 % 2 = 0), if_pos hcur, getElem?_append_len]
  dsimp only
  rw [if_pos (show ([nd] : List MNode).length = 1 from rfl)]
  rw [if_neg (by simp : ¬(false : Bool) = true)]
  rfl

theorem nextInner_postdone (hash : Buf → Buf) (sp dup : Bool) (lv : List Buf)
    (L : List (List MNode)) (nd : MNode) (hni : nd.isInternal = true) :
    nextInner hash sp dup ⟨lv, L ++ [[nd]], L.length, 0, true⟩ =
      .ok (.res ⟨none, true⟩ ⟨lv, L ++ [[nd]], L.length, 0, true⟩) := by
  have hcur : curIsLeaf ⟨lv, L ++ [[nd]], L.length, 0, true⟩ = false := by
    unfold curIsLeaf
    dsimp only
    rw [getElem?_append_len]
    dsimp only
    rw [show ([nd] : List MNode)[0]? = some nd from rfl]
    dsimp only
    rw [hni]
    rfl
  unfold nextInner
  dsimp only
  rw [if_pos (by omega : 0 % 2 = 0), if_pos hcur, getElem?_append_len]
  dsimp only
  rw [if_pos (show ([nd] : List MNode).length = 1 from rfl)]
  rw [if_pos (show (true : Bool) = true from rfl)]

theorem nextInner_lone_dup (hash : Buf → Buf) (sp : Bool) (lv : List Buf)
    (L : List (List MNode)) (R P : List MNode) (j : Nat) (n : MNode)
    (hj : j % 2 = 0) (h1 : R.length ≠ 1)
    (hlone : j + 1 = R.length) (hodd : R.length % 2 = 1)
    (hn : R[j]? = some n) (hni : n.isInternal = true) :
    nextInner hash sp true ⟨lv, L ++ [R, P], L.length, j, false⟩ =
      .ok (.res ⟨some (n, L.length, j), false⟩
        ⟨lv, L ++ [R ++ [n], P ++ [⟨some (pairHash hash false sp n.digest n.digest), none⟩]],
          L.length, j + 1, false⟩) := by
  have hcur : curIsLeaf ⟨lv, L ++ [R, P], L.length, j, false⟩ = false := by
    unfold curIsLeaf
    dsimp only
    rw [getElem?_append_len]
    dsimp only
    rw [hn]
    dsimp only
    rw [hni]
    rfl
  unfold nextInner
  dsimp only
  rw [if_pos hj, if_pos hcur, getElem?_append_len]
  dsimp only
  rw [if_neg h1, if_pos ⟨hlone, hodd⟩, if_pos (show (true : Bool) = true from rfl), hn]
  dsimp only
  rw [rowPush_at]
  dsimp only [Except.bind]
  unfold createParent
  dsimp only
  rw [getElem?_append_len]
  dsimp only
  rw [Nat.add_sub_cancel]
  have e1 : (R ++ [n])[j]? = some n := by
    rw [List.getElem?_append_left (by omega), hn]
  have e2 : (R ++ [n])[j + 1]? = some n := by
    rw [hlone, List.getElem?_append_right (by omega)]
    simp
  rw [e1, e2]
  dsimp only
  rw [if_neg (by simp)]
  rw [rowPush_at1]
  rfl

theorem nextInner_lone_promote (hash : Buf → Buf) (sp : Bool) (lv : List Buf)
    (L : List (List MNode)) (R P : List MNode) (j : Nat) (n : MNode)
    (hL : L ≠ []) (hj : j % 2 = 0) (h1 : R.length ≠ 1)
    (hlone : j + 1 = R.length) (hodd : R.length % 2 = 1)
    (hn : R[j]? = some n) :
    nextInner hash sp false ⟨lv, L ++ [R, P], L.length, j, false⟩ =
      .ok (.cont ⟨lv, L ++ [R.dropLast, P ++ [n]], L.length + 1, 0, false⟩) := by
  have hgl : R.getLast? = some n := by
    rw [List.getLast?_eq_getElem?, ← hlone, Nat.add_sub_cancel, hn]
  by_cases hni : n.isInternal = true
  · have hcur : curIsLeaf ⟨lv, L ++ [R, P], L.length, j, false⟩ = false := by
      unfold curIsLeaf
      dsimp only
      rw [getElem?_append_len]
      dsimp only
      rw [hn]
      dsimp only
      rw [hni]
      rfl
    unfold nextInner
    dsimp only
    rw [if_pos hj, if_pos hcur, getElem?_append_len]
    dsimp only
    rw [if_neg h1, if_pos ⟨hlone, hodd⟩, if_neg (by simp : ¬(false : Bool) = true)]
    rw [rowPop_at _ _ _ _ hgl]
    dsimp only [Except.bind]
    rw [rowPush_at1]
    rfl
  · have hcur : curIsLeaf ⟨lv, L ++ [R, P], L.length, j, false⟩ = true := by
      unfold curIsLeaf
      dsimp only
      rw [getElem?_append_len]
      dsimp only
      rw [hn]
      dsimp only
      simp only [Bool.not_eq_true] at hni
      rw [hni]
      rfl
    unfold nextInner
    dsimp only
    rw [if_pos hj, if_neg (by rw [hcur]; simp)]
    rw [if_neg (by simp [List.length_eq_zero]; exact hL)]
    rw [getElem?_append_len]
    dsimp only [Except.bind]
    rw [if_pos (decide_eq_true ⟨hlone, hodd⟩), if_neg (by simp : ¬(false : Bool) = true)]
    rw [rowPop_at _ _ _ _ hgl]
    dsimp only [Except.bind]
    rw [rowPush_at1]
    rw [if_neg (by simp [List.length_eq_zero]; exact hL)]
    rfl

theorem nextInner_leaf_first (hash : Buf → Buf) (sp dup : Bool) (lv : List Buf)
    (d0 d1 : Buf) (hne : ¬(0 + 1 = lv.length ∧ lv.length % 2 = 1))
    (hd0 : lv[0]? = some d0) (hd1 : lv[1]? = some d1) :
    nextInner hash sp dup ⟨lv, [], 0, 0, false⟩ =
      .ok (.res ⟨some (⟨none, some d0⟩, 0, 0), false⟩
        ⟨lv, [[⟨none, some d0⟩, ⟨none, some d1⟩],
          [⟨some (pairHash hash false sp d0 d1), none⟩]], 0, 0 + 1, false⟩) := by
  have hcur : curIsLeaf ⟨lv, [], 0, 0, false⟩ = true := rfl
  unfold nextInner
  dsimp only
  rw [if_pos (by omega : 0 % 2 = 0), if_neg (by rw [hcur]; simp)]
  rw [if_pos rfl]
  try dsimp only [Except.bind]
  rw [if_neg (by simpa using hne), if_pos rfl, hd0]
  dsimp only
  rw [show rowPush (if ([] : List (List MNode)).isEmpty = true then [[]] else []) 0
    (⟨none, some d0⟩ : MNode) = .ok [[⟨none, some d0⟩]] from rfl]
  dsimp only
  unfold createRightLeaf
  dsimp only
  rw [if_pos rfl, hd1]
  dsimp only
  rw [show rowPush [[(⟨none, some d0⟩ : MNode)]] 0 ⟨none, some d1⟩ =
    .ok [[⟨none, some d0⟩, ⟨none, some d1⟩]] from rfl]
  rfl

theorem nextInner_leaf_pair (hash : Buf → Buf) (sp dup : Bool) (lv : List Buf)
    (R0 P : List MNode) (j : Nat) (d0 d1 : Buf)
    (hj : j % 2 = 0) (hR0 : R0.length = j)
    (hne : ¬(j + 1 = lv.length ∧ lv.length % 2 = 1))
    (hd0 : lv[j]? = some d0) (hd1 : lv[j+1]? = some d1) :
    nextInner hash sp dup ⟨lv, [R0, P], 0, j, false⟩ =
      .ok (.res ⟨some (⟨none, some d0⟩, 0, j), false⟩
        ⟨lv, [R0 ++ [⟨none, some d0⟩] ++ [⟨none, some d1⟩],
          P ++ [⟨some (pairHash hash false sp d0 d1), none⟩]], 0, j + 1, false⟩) := by
  have hcur : curIsLeaf ⟨lv, [R0, P], 0, j, false⟩ = true := by
    unfold curIsLeaf
    dsimp only
    rw [show ([R0, P] : List (List MNode))[0]? = some R0 from rfl]
    dsimp only
    rw [List.getElem?_eq_none (by omega)]
  unfold nextInner
  dsimp only
  rw [if_pos hj, if_neg (by rw [hcur]; simp)]
  rw [if_pos rfl]
  try dsimp only [Except.bind]
  rw [if_neg (by simpa using hne), if_pos rfl, hd0]
  dsimp only
  rw [show rowPush (if ([R0, P] : List (List MNode)).isEmpty = true then [[]] else [R0, P]) 0
    (⟨none, some d0⟩ : MNode) = .ok [R0 ++ [⟨none, some d0⟩], P] from rfl]
  dsimp only
  unfold createRightLeaf
  dsimp only
  rw [if_pos rfl, hd1]
  dsimp only
  rw [show rowPush [R0 ++ [(⟨none, some d0⟩ : MNode)], P] 0 (⟨none, some d1⟩ : MNode) =
    .ok [R0 ++ [⟨none, some d0⟩] ++ [⟨none, some d1⟩], P] from rfl]
  dsimp only [Except.map]
  unfold createParent
  dsimp only
  rw [show ([R0 ++ [(⟨none, some d0⟩ : MNode)] ++ [(⟨none, some d1⟩ : MNode)], P] :
    List (List MNode))[0]? = some (R0 ++ [⟨none, some d0⟩] ++ [⟨none, some d1⟩]) from rfl]
  dsimp only
  rw [Nat.add_sub_cancel]
  have e1 : (R0 ++ [(⟨none, some d0⟩ : MNode)] ++ [(⟨none, some d1⟩ : MNode)])[j]? =
      some ⟨none, some d0⟩ := by
    rw [List.getElem?_append_left (by simp; omega)]
    rw [List.getElem?_append_right (by omega)]
    simp [hR0]
  have e2 : (R0 ++ [(⟨none, some d0⟩ : MNode)] ++ [(⟨none, some d1⟩ : MNode)])[j + 1]? =
      some ⟨none, some d1⟩ := by
    rw [List.getElem?_append_right (by simp; omega)]
    simp [hR0]
  rw [e1, e2]
  dsimp only
  rw [if_neg (by simp)]
  rfl

theorem nextInner_leaf_lone_promote (hash : Buf → Buf) (sp : Bool) (lv : List Buf)
    (R0 P : List MNode) (j : Nat) (d : Buf)
    (hj : j % 2 = 0) (hR0 : R0.length = j)
    (hlone : j + 1 = lv.length) (hodd : lv.length % 2 = 1)
    (hd : lv[j]? = some d) :
    nextInner hash sp false ⟨lv, [R0, P], 0, j, false⟩ =
      .ok (.cont ⟨lv, [R0, P ++ [⟨none, some d⟩]], 0 + 1, 0, false⟩) := by
  have hcur : curIsLeaf ⟨lv, [R0, P], 0, j, false⟩ = true := by
    unfold curIsLeaf
    dsimp only
    rw [show ([R0, P] : List (List MNode))[0]? = some R0 from rfl]
    dsimp only
    rw [List.getElem?_eq_none (by omega)]
  unfold nextInner
  dsimp only
  rw [if_pos hj, if_neg (by rw [hcur]; simp)]
  rw [if_pos rfl]
  try dsimp only [Except.bind]
  rw [if_pos (decide_eq_true ⟨hlone, hodd⟩), if_neg (by simp : ¬(false : Bool) = true)]
  rw [if_pos rfl, hd]
  dsimp only
  rfl

theorem nextInner_leaf_lone_dup (hash : Buf → Buf) (sp : Bool) (lv : List Buf)
    (R0 P : List MNode) (j : Nat) (d : Buf)
    (hj : j % 2 = 0) (hR0 : R0.length = j)
    (hlone : j + 1 = lv.length) (hodd : lv.length % 2 = 1)
    (hd : lv[j]? = some d) :
    nextInner hash sp true ⟨lv, [R0, P], 0, j, false⟩ =
      .ok (.res ⟨some (⟨none, some d⟩, 0, j), false⟩
        ⟨lv ++ [d], [R0 ++ [⟨none, some d⟩] ++ [⟨none, some d⟩],
          P ++ [⟨some (pairHash hash false sp d d), none⟩]], 0, j + 1, false⟩) := by
  have hcur : curIsLeaf ⟨lv, [R0, P], 0, j, false⟩ = true := by
    unfold curIsLeaf
    dsimp only
    rw [show ([R0, P] : List (List MNode))[0]? = some R0 from rfl]
    dsimp only
    rw [List.getElem?_eq_none (by omega)]
  unfold nextInner
  dsimp only
  rw [if_pos hj, if_neg (by rw [hcur]; simp)]
  rw [if_pos rfl]
  try dsimp only [Except.bind]
  rw [if_pos (decide_eq_true ⟨hlone, hodd⟩), if_pos (show (true : Bool) = true from rfl)]
  rw [if_pos rfl, hd]
  dsimp only
  rw [show rowPush [R0, P] 0 (⟨none, some d⟩ : MNode) =
    .ok [R0 ++ [⟨none, some d⟩], P] from rfl]
  dsimp only
  unfold createRightLeaf
  dsimp only
  rw [if_pos rfl]
  rw [show (lv ++ [d])[j + 1]? = some d from by
    rw [hlone, List.getElem?_append_right (by omega)]
    simp]
  dsimp only
  rw [show rowPush [R0 ++ [(⟨none, some d⟩ : MNode)], P] 0 (⟨none, some d⟩ : MNode) =
    .ok [R0 ++ [⟨none, some d⟩] ++ [⟨none, some d⟩], P] from rfl]
  dsimp only [Except.map]
  unfold createParent
  dsimp only
  rw [show ([R0 ++ [(⟨none, some d⟩ : MNode)] ++ [(⟨none, some d⟩ : MNode)], P] :
    List (List MNode))[0]? = some (R0 ++ [⟨none, some d⟩] ++ [⟨none, some d⟩]) from rfl]
  dsimp only
  rw [Nat.add_sub_cancel]
  have e1 : (R0 ++ [(⟨none, some d⟩ : MNode)] ++ [(⟨none, some d⟩ : MNode)])[j]? =
      some ⟨none, some d⟩ := by
    rw [List.getElem?_append_left (by simp; omega)]
    rw [List.getElem?_append_right (by omega)]
    simp [hR0]
  have e2 : (R0 ++ [(⟨none, some d⟩ : MNode)] ++ [(⟨none, some d⟩ : MNode)])[j + 1]? =
      some ⟨none, some d⟩ := by
    rw [List.getElem?_append_right (by simp; omega)]
    simp [hR0]
  rw [e1, e2]
  dsimp only
  rw [if_neg (by simp)]
  rfl

theorem incEmitsGo_single (hash : Buf → Buf) (sp dup : Bool) (g : Nat) (d : Buf) :
    incEmitsGo hash sp dup g [d] = [d] := by
  cases g with
  | zero => rfl
  | succ g => simp [incEmitsGo]

theorem incEmits_unfold (hash : Buf → Buf) (sp dup : Bool) (D : List Buf)
    (h2 : 2 ≤ D.length) :
    incEmitsGo hash sp dup D.length D =
      rowEmitsFrom dup D ++
        incEmitsGo hash sp dup (createHashesStep hash false sp dup D).length
          (createHashesStep hash false sp dup D) := by
  have hstep := createHashesStep_length hash false sp dup D
  obtain ⟨g, hg⟩ : ∃ g, D.length = g + 1 := ⟨D.length - 1, by omega⟩
  rw [hg, incEmitsGo]
  rw [if_neg (by omega)]
  rw [incEmitsGo_gas hash sp dup g _ _ (by omega) (le_refl _)]

theorem rowEmitsFrom_cons2 (dup : Bool) (a b : Buf) (Y : List Buf) (hY : Y ≠ []) :
    rowEmitsFrom dup (a :: b :: Y) = a :: b :: rowEmitsFrom dup Y := by
  unfold rowEmitsFrom
  have hpar : (a :: b :: Y).length % 2 = Y.length % 2 := by simp; omega
  rw [hpar]
  by_cases hodd : Y.length % 2 = 1
  · rw [if_pos hodd, if_pos hodd]
    cases hdup : dup
    · simp only [if_neg (by simp : ¬(false : Bool) = true)]
      rw [List.dropLast_cons₂, List.dropLast_cons_of_ne_nil hY]
    · simp only [if_pos (rfl : (true : Bool) = true)]
      rw [getLastD_cons_ne_nil _ (by simp), getLastD_cons_ne_nil _ hY]
      simp
  · rw [if_neg hodd, if_neg hodd]

theorem runGo_congr (hash : Buf → Buf) (sp dup : Bool) (s s' : IncState)
    (h : MerkleNext hash sp dup s = MerkleNext hash sp dup s') (f : Nat) :
    runGo hash sp dup f s = runGo hash sp dup f s' := by
  cases f with
  | zero => rfl
  | succ f => rw [runGo, runGo, h]

theorem internalNodes_append (x y : List Buf) :
    internalNodes (x ++ y) = internalNodes x ++ internalNodes y := by
  simp [internalNodes]

theorem digestsOf_append (x y : List MNode) :
    digestsOf (x ++ y) = digestsOf x ++ digestsOf y := by
  simp [digestsOf]

theorem digestsOf_getElem? (R : List MNode) (k : Nat) (n : MNode)
    (h : R[k]? = some n) : (digestsOf R)[k]? = some n.digest := by
  simp [digestsOf, List.getElem?_map, h]

theorem digestsOf_length (R : List MNode) : (digestsOf R).length = R.length := by
  simp [digestsOf]

theorem internalNodes_internal (X : List Buf) (k : Nat)
    (hk : k < (internalNodes X).length) :
    ((internalNodes X).get ⟨k, hk⟩).isInternal = true := by
  have hk2 : k < X.length := by simpa [internalNodes] using hk
  have : (internalNodes X).get ⟨k, hk⟩ = ⟨some (X.get ⟨k, hk2⟩), none⟩ := by
    simp [internalNodes, List.get_eq_getElem, List.getElem_map]
  rw [this]
  rfl

theorem internalNodes_length (X : List Buf) :
    (internalNodes X).length = X.length := by
  simp [internalNodes]

theorem getElem_of_getElem? {α : Type} {l : List α} {k : Nat} {a : α}
    (hk : k < l.length) (h : l[k]? = some a) : l[k] = a := by
  have h1 := List.getElem?_eq_getElem hk
  rw [h] at h1
  exact (Option.some.inj h1).symm

theorem get_of_getElem? {α : Type} {l : List α} {k : Nat} {a : α}
    (hk : k < l.length) (h : l[k]? = some a) : l.get ⟨k, hk⟩ = a := by
  rw [List.get_eq_getElem]
  exact getElem_of_getElem? hk h

theorem rowRun (hash : Buf → Buf) (sp dup : Bool) :
    ∀ N m r t : Nat, ∀ (lv : List Buf) (L T : List (List MNode)) (R : List MNode),
      2 * m + r ≤ N →
      L ≠ [] → R.length = m → m = 2 * t + r → 1 ≤ r →
      (t = 0 ∧ T = [] ∨ 1 ≤ t ∧
        T = [internalNodes (createHashesStep hash false sp dup ((digestsOf R).take (2 * t)))]) →
      (∀ k (hk : k < R.length), (k + 1 < R.length ∨ dup = true ∨ R.length = 1) →
        (R.get ⟨k, hk⟩).isInternal = true) →
      ∀ f, 2 * r + 4 * m ≤ f →
      ∃ sF, runGo hash sp dup f ⟨lv, L ++ R :: T, L.length, 2 * t, false⟩ =
          .ok ((if m = 1 then digestsOf R else
            rowEmitsFrom dup ((digestsOf R).drop (2 * t)) ++
              incEmitsGo hash sp dup (createHashesStep hash false sp dup (digestsOf R)).length
                (createHashesStep hash false sp dup (digestsOf R))), sF) ∧
        MerkleNext hash sp dup sF = .ok (⟨none, true⟩, sF) := by
  intro N
  induction N with
  | zero =>
    intro m r t lv L T R hN _ _ _ hr _ _ f _
    omega
  | succ N ih =>
    intro m r t lv L T R hN hL hRlen hmrt hr hT hInt f hf
    by_cases hm1 : m = 1
    · -- the current row is the root row: emit the root, then report exhaustion
      have ht0 : t = 0 := by omega
      have hT0 : T = [] := by
        rcases hT with ⟨_, h⟩ | ⟨h1, _⟩
        · exact h
        · omega
      subst ht0 hT0 hm1
      match R, hRlen with
      | [nd], hRlen =>
        have hni : nd.isInternal = true := by
          have := hInt 0 (by simp) (by right; right; simp)
          simpa using this
        obtain ⟨f1, rfl⟩ : ∃ f1, f = f1 + 2 := ⟨f - 2, by omega⟩
        have h1 := MerkleNext_res hash sp dup _ _ _
          (nextInner_root hash sp dup lv L nd hni)
        have h2 := MerkleNext_res hash sp dup _ _ _
          (nextInner_postdone hash sp dup lv L nd hni)
        refine ⟨⟨lv, L ++ [[nd]], L.length, 0, true⟩, ?_, h2⟩
        rw [show f1 + 2 = (f1 + 1) + 1 from rfl]
        rw [show (2 : Nat) * 0 = 0 from rfl]
        rw [runGo_step hash sp dup _ _ _ _ _ h1]
        rw [runGo_done hash sp dup _ _ _ _ h2]
        simp [digestsOf, MNode.digest, Except.map]
    · -- at least one unconsumed node and the row is not the root row
      have hm2 : 2 ≤ m := by omega
      have hDlen : (digestsOf R).length = m := by rw [digestsOf_length, hRlen]
      have h2tR : 2 * t < R.length := by omega
      obtain ⟨n, hn⟩ : ∃ n, R[2*t]? = some n := ⟨_, List.getElem?_eq_getElem h2tR⟩
      have hdn : (digestsOf R)[2*t]? = some n.digest := digestsOf_getElem? R _ n hn
      by_cases hr1 : r = 1
      · -- a lone trailing node: `duplicateOdd` self-pairs it, otherwise it is
        -- promoted to the next layer by the tail-call branch
        have ht1 : 1 ≤ t := by omega
        have hlone : 2*t + 1 = R.length := by omega
        have hodd : R.length % 2 = 1 := by omega
        have hTP : T = [internalNodes (createHashesStep hash false sp dup
            ((digestsOf R).take (2 * t)))] := by
          rcases hT with ⟨h0, _⟩ | ⟨_, h⟩
          · omega
          · exact h
        subst hTP
        have hdrop1 : (digestsOf R).drop (2*t) = [n.digest] := by
          rw [List.drop_eq_getElem_cons (by omega : 2*t < (digestsOf R).length)]
          rw [getElem_of_getElem? (by omega) hdn]
          rw [List.drop_eq_nil_of_le (by omega)]
        have hDsnoc : digestsOf R = (digestsOf R).take (2*t) ++ [n.digest] := by
          conv_lhs => rw [← List.take_append_drop (2*t) (digestsOf R)]
          rw [hdrop1]
        have hstepD : createHashesStep hash false sp dup (digestsOf R) =
            createHashesStep hash false sp dup ((digestsOf R).take (2*t)) ++
              (if dup then [pairHash hash false sp n.digest n.digest] else [n.digest]) := by
          conv_lhs => rw [hDsnoc]
          exact createHashesStep_snoc1 hash sp dup t _ _ (by rw [List.length_take]; omega)
        have hCSlen : (createHashesStep hash false sp dup (digestsOf R)).length = t + 1 := by
          have := createHashesStep_length hash false sp dup (digestsOf R)
          omega
        have hPlen : (internalNodes (createHashesStep hash false sp dup
            ((digestsOf R).take (2 * t)))).length = t := by
          rw [internalNodes_length]
          have h1 := createHashesStep_length hash false sp dup ((digestsOf R).take (2*t))
          rw [List.length_take] at h1
          omega
        cases dup with
        | true =>
          have hni : n.isInternal = true := by
            rw [← get_of_getElem? h2tR hn]
            exact hInt (2*t) h2tR (Or.inr (Or.inl rfl))
          have hstep1 := nextInner_lone_dup hash sp lv L R
            (internalNodes (createHashesStep hash false sp true
              ((digestsOf R).take (2 * t)))) (2*t) n (by omega) (by omega) hlone hodd hn hni
          have hrow2 : ((L ++ [R ++ [n], internalNodes (createHashesStep hash false sp true
              ((digestsOf R).take (2 * t))) ++
              [⟨some (pairHash hash false sp n.digest n.digest), none⟩]] :
              List (List MNode)))[L.length]? = some (R ++ [n]) :=
            getElem?_append_len L _ _
          have hstep2 := nextInner_moveRight_end hash sp true
            ⟨lv, L ++ [R ++ [n], internalNodes (createHashesStep hash false sp true
              ((digestsOf R).take (2 * t))) ++
              [⟨some (pairHash hash false sp n.digest n.digest), none⟩]],
              L.length, 2*t + 1, false⟩ (R ++ [n]) n
            (by show (2*t + 1) % 2 = 1; omega) hrow2
            (by
              show (R ++ [n])[2*t + 1]? = some n
              rw [List.getElem?_append_right (by omega)]
              rw [hlone]
              simp)
            (by
              show 2*t + 1 = (if L.length = 0 then lv.length else (R ++ [n]).length) - 1
              rw [if_neg (by simp [List.length_eq_zero]; exact hL)]
              simp
              omega)
          have hP' : internalNodes (createHashesStep hash false sp true
              ((digestsOf R).take (2 * t))) ++
              [(⟨some (pairHash hash false sp n.digest n.digest), none⟩ : MNode)] =
              internalNodes (createHashesStep hash false sp true (digestsOf R)) := by
            rw [hstepD]
            rw [if_pos rfl]
            rw [internalNodes_append]
            rfl
          have hIN : (internalNodes (createHashesStep hash false sp true
              (digestsOf R))).length = t + 1 := by rw [internalNodes_length, hCSlen]
          obtain ⟨f2, rfl⟩ : ∃ f2, f = f2 + 2 := ⟨f - 2, by omega⟩
          obtain ⟨sF, hrun, hdone⟩ := ih (t+1) (t+1) 0 lv (L ++ [R ++ [n]]) []
            (internalNodes (createHashesStep hash false sp true (digestsOf R)))
            (by omega) (by simp) hIN (by omega) (by omega) (Or.inl ⟨rfl, rfl⟩)
            (fun k hk _ => internalNodes_internal _ k hk) f2 (by omega)
          refine ⟨sF, ?_, hdone⟩
          rw [show f2 + 2 = (f2 + 1) + 1 from rfl]
          rw [runGo_step hash sp true _ _ _ _ _ (MerkleNext_res hash sp true _ _ _ hstep1)]
          rw [runGo_step hash sp true _ _ _ _ _ (MerkleNext_res hash sp true _ _ _ hstep2)]
          rw [hP']
          rw [show (⟨lv, L ++ [R ++ [n], internalNodes (createHashesStep hash false sp true
              (digestsOf R))], L.length + 1, 0, false⟩ : IncState) =
            ⟨lv, (L ++ [R ++ [n]]) ++ internalNodes (createHashesStep hash false sp true
              (digestsOf R)) :: [], (L ++ [R ++ [n]]).length, 2*0, false⟩ from by simp]
          rw [hrun]
          simp only [Except.map, if_neg hm1]
          rw [hdrop1]
          rw [show rowEmitsFrom true [n.digest] = [n.digest, n.digest] from by
            simp [rowEmitsFrom]]
          rw [digestsOf_internalNodes, List.drop_zero]
          rw [if_neg (by omega)]
          rw [incEmits_unfold hash sp true
            (createHashesStep hash false sp true (digestsOf R)) (by omega)]
          rfl
        | false =>
          have hstep1 := nextInner_lone_promote hash sp lv L R
            (internalNodes (createHashesStep hash false sp false
              ((digestsOf R).take (2 * t)))) (2*t) n hL (by omega) (by omega) hlone hodd hn
          have hD2 : digestsOf (internalNodes (createHashesStep hash false sp false
              ((digestsOf R).take (2 * t))) ++ [n]) =
              createHashesStep hash false sp false (digestsOf R) := by
            rw [digestsOf_append, digestsOf_internalNodes]
            rw [hstepD]
            rfl
          have hRlen2 : (internalNodes (createHashesStep hash false sp false
              ((digestsOf R).take (2 * t))) ++ [n]).length = t + 1 := by
            rw [List.length_append, hPlen]
            rfl
          obtain ⟨sF, hrun, hdone⟩ := ih (t+1) (t+1) 0 lv (L ++ [R.dropLast]) []
            (internalNodes (createHashesStep hash false sp false
              ((digestsOf R).take (2 * t))) ++ [n])
            (by omega) (by simp) hRlen2 (by omega) (by omega) (Or.inl ⟨rfl, rfl⟩)
            (by
              intro k hk hcond
              rcases hcond with hc | hc | hc
              · have hkP : k < (internalNodes (createHashesStep hash false sp false
                    ((digestsOf R).take (2 * t)))).length := by
                  rw [hPlen]
                  rw [hRlen2] at hc
                  omega
                rw [List.get_eq_getElem, List.getElem_append_left hkP]
                exact internalNodes_internal _ k hkP
              · cases hc
              · rw [hRlen2] at hc; omega)
            f (by omega)
          refine ⟨sF, ?_, hdone⟩
          rw [runGo_congr hash sp false _ _ (MerkleNext_cont hash sp false _ _ hstep1) f]
          rw [show (⟨lv, L ++ [R.dropLast, internalNodes (createHashesStep hash false sp false
              ((digestsOf R).take (2 * t))) ++ [n]], L.length + 1, 0, false⟩ : IncState) =
            ⟨lv, (L ++ [R.dropLast]) ++ (internalNodes (createHashesStep hash false sp false
              ((digestsOf R).take (2 * t))) ++ [n]) :: [], (L ++ [R.dropLast]).length,
              2*0, false⟩ from by simp]
          rw [hrun]
          simp only [if_neg hm1]
          rw [hdrop1]
          rw [show rowEmitsFrom false [n.digest] = [] from by simp [rowEmitsFrom]]
          rw [hD2, List.drop_zero]
          rw [if_neg (by omega)]
          rw [incEmits_unfold hash sp false
            (createHashesStep hash false sp false (digestsOf R)) (by omega)]
          rfl
      · -- a full pair remains: `_createParent` then `_moveRight`
        have hr2 : 2 ≤ r := by omega
        have h2t1 : 2 * t + 1 < R.length := by omega
        obtain ⟨n2, hn2⟩ : ∃ n2, R[2*t+1]? = some n2 := ⟨_, List.getElem?_eq_getElem h2t1⟩
        have hdn2 : (digestsOf R)[2*t+1]? = some n2.digest := digestsOf_getElem? R _ n2 hn2
        have hni : n.isInternal = true := by
          rw [← get_of_getElem? h2tR hn]
          exact hInt (2*t) h2tR (Or.inl (by omega))
        have hne1 : R.length ≠ 1 := by omega
        have hnm : ¬(2*t + 1 = R.length ∧ R.length % 2 = 1) := by
          rintro ⟨h, -⟩; omega
        have hgrow : createHashesStep hash false sp dup ((digestsOf R).take (2*(t+1))) =
            createHashesStep hash false sp dup ((digestsOf R).take (2*t)) ++
              [pairHash hash false sp n.digest n2.digest] := by
          rw [show 2*(t+1) = 2*t + 2 by ring]
          rw [take_two_more (digestsOf R) (2*t) [] (by omega)]
          rw [createHashesStep_snoc2 hash sp dup t _ _ _ (by rw [List.length_take]; omega)]
          rw [List.getD_eq_getElem?_getD, hdn, List.getD_eq_getElem?_getD, hdn2]
          rfl
        -- step 1: `_createParent` emits the left node
        obtain ⟨f2, rfl⟩ : ∃ f2, f = f2 + 2 := ⟨f - 2, by omega⟩
        have hstep1 : nextInner hash sp dup ⟨lv, L ++ R :: T, L.length, 2*t, false⟩ =
            .ok (.res ⟨some (n, L.length, 2*t), false⟩
              ⟨lv, L ++ [R, internalNodes (createHashesStep hash false sp dup
                ((digestsOf R).take (2*(t+1))))], L.length, 2*t + 1, false⟩) := by
          rcases hT with ⟨ht0, hTnil⟩ | ⟨ht1, hTP⟩
          · subst hTnil
            subst ht0
            simp only [Nat.mul_zero] at hn hn2 ⊢
            have h0 := nextInner_pair_first hash sp dup lv L R n n2 hne1
              (by simpa using hnm) hn hni hn2
            rw [h0]
            rw [hgrow]
            simp only [internalNodes_append]
            rw [show (List.take (2 * 0) (digestsOf R)) = [] from rfl]
            rfl
          · subst hTP
            have h0 := nextInner_pair_mid hash sp dup lv L R
              (internalNodes (createHashesStep hash false sp dup
                ((digestsOf R).take (2*t)))) (2*t) n n2 (by omega) hne1 hnm hn hni hn2
            rw [h0]
            rw [hgrow]
            rw [internalNodes_append]
            rfl
        -- step 2: `_moveRight` emits the right node
        have hrow2 : ((L ++ [R, internalNodes (createHashesStep hash false sp dup
            ((digestsOf R).take (2*(t+1))))] : List (List MNode)))[L.length]? = some R :=
          getElem?_append_len L R _
        by_cases hr2e : r = 2
        · -- the pair was the last one: move to the freshly finished row above
          have hstep2 : nextInner hash sp dup
              ⟨lv, L ++ [R, internalNodes (createHashesStep hash false sp dup
                ((digestsOf R).take (2*(t+1))))], L.length, 2*t + 1, false⟩ =
              .ok (.res ⟨some (n2, L.length, 2*t + 1), false⟩
                ⟨lv, L ++ [R, internalNodes (createHashesStep hash false sp dup
                  ((digestsOf R).take (2*(t+1))))], L.length + 1, 0, false⟩) := by
            have h0 := nextInner_moveRight_end hash sp dup
              ⟨lv, L ++ [R, internalNodes (createHashesStep hash false sp dup
                ((digestsOf R).take (2*(t+1))))], L.length, 2*t + 1, false⟩ R n2
              (by show (2*t + 1) % 2 = 1; omega) hrow2 hn2
              (by
                show 2*t + 1 = (if L.length = 0 then lv.length else R.length) - 1
                rw [if_neg (by simp [List.length_eq_zero]; exact hL)]
                omega)
            exact h0
          have hm2t : m = 2*t + 2 := by omega
          have htake : (digestsOf R).take (2*(t+1)) = digestsOf R :=
            List.take_of_length_le (by omega)
          have hCSlen : (createHashesStep hash false sp dup (digestsOf R)).length = t + 1 := by
            have := createHashesStep_length hash false sp dup (digestsOf R)
            omega
          have hIN : (internalNodes (createHashesStep hash false sp dup (digestsOf R))).length
              = t + 1 := by rw [internalNodes_length, hCSlen]
          obtain ⟨sF, hrun, hdone⟩ := ih (t+1) (t+1) 0 lv (L ++ [R]) []
            (internalNodes (createHashesStep hash false sp dup (digestsOf R)))
            (by omega) (by simp) hIN (by omega) (by omega) (Or.inl ⟨rfl, rfl⟩)
            (fun k hk _ => internalNodes_internal _ k hk) f2 (by omega)
          refine ⟨sF, ?_, hdone⟩
          rw [show f2 + 2 = (f2 + 1) + 1 from rfl]
          rw [runGo_step hash sp dup _ _ _ _ _ (MerkleNext_res hash sp dup _ _ _ hstep1)]
          rw [runGo_step hash sp dup _ _ _ _ _ (MerkleNext_res hash sp dup _ _ _ hstep2)]
          rw [htake]
          rw [show (⟨lv, L ++ [R, internalNodes (createHashesStep hash false sp dup
              (digestsOf R))], L.length + 1, 0, false⟩ : IncState) =
            ⟨lv, (L ++ [R]) ++ internalNodes (createHashesStep hash false sp dup
              (digestsOf R)) :: [], (L ++ [R]).length, 2*0, false⟩ from by simp]
          rw [hrun]
          have hdropD : (digestsOf R).drop (2*t) = [n.digest, n2.digest] := by
            rw [List.drop_eq_getElem_cons (by omega : 2*t < (digestsOf R).length)]
            rw [List.drop_eq_getElem_cons (by omega : 2*t + 1 < (digestsOf R).length)]
            rw [getElem_of_getElem? (by omega) hdn, getElem_of_getElem? (by omega) hdn2]
            rw [List.drop_eq_nil_of_le (by omega)]
          simp only [Except.map, if_neg hm1]
          rw [hdropD]
          rw [show rowEmitsFrom dup [n.digest, n2.digest] = [n.digest, n2.digest] from by
            simp [rowEmitsFrom]]
          rw [digestsOf_internalNodes, List.drop_zero]
          rcases Nat.eq_zero_or_pos t with ht0 | htpos
          · subst ht0
            rw [if_pos rfl]
            cases hCS : createHashesStep hash false sp dup (digestsOf R) with
            | nil => rw [hCS] at hCSlen; simp at hCSlen
            | cons c cs =>
              cases cs with
              | nil => simp [incEmitsGo_single]
              | cons c2 cs2 => rw [hCS] at hCSlen; simp at hCSlen
          · rw [if_neg (by omega)]
            rw [incEmits_unfold hash sp dup
              (createHashesStep hash false sp dup (digestsOf R)) (by omega)]
            rfl
        · -- more pairs follow on this row
          have hr3 : 3 ≤ r := by omega
          have hstep2 : nextInner hash sp dup
              ⟨lv, L ++ [R, internalNodes (createHashesStep hash false sp dup
                ((digestsOf R).take (2*(t+1))))], L.length, 2*t + 1, false⟩ =
              .ok (.res ⟨some (n2, L.length, 2*t + 1), false⟩
                ⟨lv, L ++ [R, internalNodes (createHashesStep hash false sp dup
                  ((digestsOf R).take (2*(t+1))))], L.length, 2*t + 1 + 1, false⟩) := by
            have h0 := nextInner_moveRight_mid hash sp dup
              ⟨lv, L ++ [R, internalNodes (createHashesStep hash false sp dup
                ((digestsOf R).take (2*(t+1))))], L.length, 2*t + 1, false⟩ R n2
              (by show (2*t + 1) % 2 = 1; omega) hrow2 hn2
              (by
                show 2*t + 1 ≠ (if L.length = 0 then lv.length else R.length) - 1
                rw [if_neg (by simp [List.length_eq_zero]; exact hL)]
                omega)
            exact h0
          -- invoke the induction hypothesis two columns further right
          obtain ⟨sF, hrun, hdone⟩ := ih m (r - 2) (t + 1) lv L
            [internalNodes (createHashesStep hash false sp dup
              ((digestsOf R).take (2*(t+1))))] R (by omega) hL hRlen (by omega) (by omega)
            (Or.inr ⟨by omega, rfl⟩) hInt f2 (by omega)
          refine ⟨sF, ?_, hdone⟩
          rw [show f2 + 2 = (f2 + 1) + 1 from rfl]
          rw [runGo_step hash sp dup _ _ _ _ _ (MerkleNext_res hash sp dup _ _ _ hstep1)]
          rw [runGo_step hash sp dup _ _ _ _ _ (MerkleNext_res hash sp dup _ _ _ hstep2)]
          rw [show (⟨lv, L ++ [R, internalNodes (createHashesStep hash false sp dup
              ((digestsOf R).take (2*(t+1))))], L.length, 2*t + 1 + 1, false⟩ : IncState) =
            ⟨lv, L ++ R :: [internalNodes (createHashesStep hash false sp dup
              ((digestsOf R).take (2*(t+1))))], L.length, 2*(t+1), false⟩ from rfl]
          rw [hrun]
          have hdropD : (digestsOf R).drop (2*t) =
              n.digest :: n2.digest :: (digestsOf R).drop (2*(t+1)) := by
            rw [List.drop_eq_getElem_cons (by omega : 2*t < (digestsOf R).length)]
            rw [List.drop_eq_getElem_cons (by omega : 2*t + 1 < (digestsOf R).length)]
            rw [getElem_of_getElem? (by omega) hdn, getElem_of_getElem? (by omega) hdn2]
            rw [show 2*(t+1) = 2*t + 1 + 1 by ring]
          simp only [Except.map, if_neg hm1]
          rw [hdropD, rowEmitsFrom_cons2 dup _ _ _ (by
            rw [← List.length_pos, List.length_drop]
            omega)]
          rfl

theorem leafRun (hash : Buf → Buf) (sp dup : Bool) :
    ∀ K r t : Nat, ∀ (lv : List Buf),
      r ≤ K →
      lv.length = 2 * t + r → 1 ≤ r → 2 ≤ lv.length →
      ∀ T : List (List MNode),
      (t = 0 ∧ T = [] ∨ 1 ≤ t ∧
        T = [leafNodes (lv.take (2*t)),
          internalNodes (createHashesStep hash false sp dup (lv.take (2 * t)))]) →
      ∀ f, 2 * r + 4 * lv.length ≤ f →
      ∃ sF, runGo hash sp dup f ⟨lv, T, 0, 2 * t, false⟩ =
          .ok (rowEmitsFrom dup (lv.drop (2 * t)) ++
            incEmitsGo hash sp dup (createHashesStep hash false sp dup lv).length
              (createHashesStep hash false sp dup lv), sF) ∧
        MerkleNext hash sp dup sF = .ok (⟨none, true⟩, sF) := by
  intro K
  induction K with
  | zero =>
    intro r t lv hK hlen hr _ T hT f hf
    omega
  | succ K ihK =>
    intro r t lv hK hlen hr hn2 T hT f hf
    have h2t : 2 * t < lv.length := by omega
    obtain ⟨d0, hd0⟩ : ∃ d0, lv[2*t]? = some d0 := ⟨_, List.getElem?_eq_getElem h2t⟩
    by_cases hr1 : r = 1
    · -- a lone trailing leaf: duplicated under `duplicateOdd`, else promoted
      have hlone : 2*t + 1 = lv.length := by omega
      have hodd : lv.length % 2 = 1 := by omega
      have ht1 : 1 ≤ t := by omega
      have hTP : T = [leafNodes (lv.take (2*t)),
          internalNodes (createHashesStep hash false sp dup (lv.take (2 * t)))] := by
        rcases hT with ⟨h0, _⟩ | ⟨_, h⟩
        · omega
        · exact h
      subst hTP
      have hdrop1 : lv.drop (2*t) = [d0] := by
        rw [List.drop_eq_getElem_cons (by omega : 2*t < lv.length)]
        rw [getElem_of_getElem? (by omega) hd0]
        rw [List.drop_eq_nil_of_le (by omega)]
      have hsnoc : lv = lv.take (2*t) ++ [d0] := by
        conv_lhs => rw [← List.take_append_drop (2*t) lv]
        rw [hdrop1]
      have hstepD : createHashesStep hash false sp dup lv =
          createHashesStep hash false sp dup (lv.take (2*t)) ++
            (if dup then [pairHash hash false sp d0 d0] else [d0]) := by
        conv_lhs => rw [hsnoc]
        exact createHashesStep_snoc1 hash sp dup t _ _ (by rw [List.length_take]; omega)
      have hCSlen : (createHashesStep hash false sp dup lv).length = t + 1 := by
        have := createHashesStep_length hash false sp dup lv
        omega
      have hPlen : (internalNodes (createHashesStep hash false sp dup
          (lv.take (2 * t)))).length = t := by
        rw [internalNodes_length]
        have h1 := createHashesStep_length hash false sp dup (lv.take (2*t))
        rw [List.length_take] at h1
        omega
      have hR0len : (leafNodes (lv.take (2*t))).length = 2*t := by
        simp only [leafNodes, List.length_map, List.length_take]
        omega
      cases dup with
      | false =>
        have hstep1 := nextInner_leaf_lone_promote hash sp lv (leafNodes (lv.take (2*t)))
          (internalNodes (createHashesStep hash false sp false (lv.take (2 * t))))
          (2*t) d0 (by omega) hR0len hlone hodd hd0
        have hD2 : digestsOf (internalNodes (createHashesStep hash false sp false
            (lv.take (2 * t))) ++ [⟨none, some d0⟩]) =
            createHashesStep hash false sp false lv := by
          rw [digestsOf_append, digestsOf_internalNodes]
          rw [hstepD]
          rfl
        have hRlen2 : (internalNodes (createHashesStep hash false sp false
            (lv.take (2 * t))) ++ [(⟨none, some d0⟩ : MNode)]).length = t + 1 := by
          rw [List.length_append, hPlen]
          rfl
        obtain ⟨sF, hrun, hdone⟩ := rowRun hash sp false (3*(t+1)) (t+1) (t+1) 0 lv
          [leafNodes (lv.take (2*t))] []
          (internalNodes (createHashesStep hash false sp false (lv.take (2 * t))) ++
            [⟨none, some d0⟩])
          (by omega) (by simp) hRlen2 (by omega) (by omega) (Or.inl ⟨rfl, rfl⟩)
          (by
            intro k hk hcond
            rcases hcond with hc | hc | hc
            · have hkP : k < (internalNodes (createHashesStep hash false sp false
                  (lv.take (2 * t)))).length := by
                rw [hPlen]
                rw [hRlen2] at hc
                omega
              rw [List.get_eq_getElem, List.getElem_append_left hkP]
              exact internalNodes_internal _ k hkP
            · cases hc
            · rw [hRlen2] at hc; omega)
          f (by omega)
        refine ⟨sF, ?_, hdone⟩
        rw [runGo_congr hash sp false _ _ (MerkleNext_cont hash sp false _ _ hstep1) f]
        rw [show (⟨lv, [leafNodes (lv.take (2*t)),
            internalNodes (createHashesStep hash false sp false (lv.take (2 * t))) ++
              [⟨none, some d0⟩]], 0 + 1, 0, false⟩ : IncState) =
          ⟨lv, [leafNodes (lv.take (2*t))] ++
            (internalNodes (createHashesStep hash false sp false (lv.take (2 * t))) ++
              [⟨none, some d0⟩]) :: [], [leafNodes (lv.take (2*t))].length, 2*0, false⟩
          from rfl]
        rw [hrun]
        rw [hdrop1]
        rw [show rowEmitsFrom false [d0] = [] from by simp [rowEmitsFrom]]
        rw [if_neg (by omega)]
        rw [hD2, List.drop_zero]
        rw [incEmits_unfold hash sp false
          (createHashesStep hash false sp false lv) (by omega)]
        rfl
      | true =>
        have hstep1 := nextInner_leaf_lone_dup hash sp lv (leafNodes (lv.take (2*t)))
          (internalNodes (createHashesStep hash false sp true (lv.take (2 * t))))
          (2*t) d0 (by omega) hR0len hlone hodd hd0
        have hrow2 : ((⟨lv ++ [d0], [leafNodes (lv.take (2*t)) ++ [⟨none, some d0⟩] ++
            [⟨none, some d0⟩], internalNodes (createHashesStep hash false sp true
            (lv.take (2 * t))) ++ [⟨some (pairHash hash false sp d0 d0), none⟩]],
            0, 2*t + 1, false⟩ : IncState)).layers[(0 : Nat)]? =
            some (leafNodes (lv.take (2*t)) ++ [⟨none, some d0⟩] ++ [⟨none, some d0⟩]) := rfl
        have hstep2 := nextInner_moveRight_end hash sp true
          ⟨lv ++ [d0], [leafNodes (lv.take (2*t)) ++ [⟨none, some d0⟩] ++ [⟨none, some d0⟩],
            internalNodes (createHashesStep hash false sp true (lv.take (2 * t))) ++
              [⟨some (pairHash hash false sp d0 d0), none⟩]], 0, 2*t + 1, false⟩
          (leafNodes (lv.take (2*t)) ++ [⟨none, some d0⟩] ++ [⟨none, some d0⟩])
          ⟨none, some d0⟩
          (by show (2*t + 1) % 2 = 1; omega) hrow2
          (by
            show (leafNodes (lv.take (2*t)) ++ [(⟨none, some d0⟩ : MNode)] ++
              [(⟨none, some d0⟩ : MNode)])[2*t + 1]? = some ⟨none, some d0⟩
            rw [List.getElem?_append_right (by simp [hR0len])]
            simp [hR0len])
          (by
            show 2*t + 1 = (if (0 : Nat) = 0 then (lv ++ [d0]).length else
              (leafNodes (lv.take (2*t)) ++ [(⟨none, some d0⟩ : MNode)] ++
                [(⟨none, some d0⟩ : MNode)]).length) - 1
            rw [if_pos rfl]
            simp
            omega)
        have hP' : internalNodes (createHashesStep hash false sp true (lv.take (2 * t))) ++
            [(⟨some (pairHash hash false sp d0 d0), none⟩ : MNode)] =
            internalNodes (createHashesStep hash false sp true lv) := by
          rw [hstepD]
          rw [if_pos rfl]
          rw [internalNodes_append]
          rfl
        have hIN : (internalNodes (createHashesStep hash false sp true lv)).length
            = t + 1 := by rw [internalNodes_length, hCSlen]
        obtain ⟨f2, rfl⟩ : ∃ f2, f = f2 + 2 := ⟨f - 2, by omega⟩
        obtain ⟨sF, hrun, hdone⟩ := rowRun hash sp true (3*(t+1)) (t+1) (t+1) 0 (lv ++ [d0])
          [leafNodes (lv.take (2*t)) ++ [⟨none, some d0⟩] ++ [⟨none, some d0⟩]] []
          (internalNodes (createHashesStep hash false sp true lv))
          (by omega) (by simp) hIN (by omega) (by omega) (Or.inl ⟨rfl, rfl⟩)
          (fun k hk _ => internalNodes_internal _ k hk) f2 (by omega)
        refine ⟨sF, ?_, hdone⟩
        rw [show f2 + 2 = (f2 + 1) + 1 from rfl]
        rw [runGo_step hash sp true _ _ _ _ _ (MerkleNext_res hash sp true _ _ _ hstep1)]
        rw [runGo_step hash sp true _ _ _ _ _ (MerkleNext_res hash sp true _ _ _ hstep2)]
        rw [hP']
        rw [show (⟨lv ++ [d0], [leafNodes (lv.take (2*t)) ++ [⟨none, some d0⟩] ++
            [⟨none, some d0⟩], internalNodes (createHashesStep hash false sp true lv)],
            0 + 1, 0, false⟩ : IncState) =
          ⟨lv ++ [d0], [leafNodes (lv.take (2*t)) ++ [⟨none, some d0⟩] ++
            [⟨none, some d0⟩]] ++ internalNodes (createHashesStep hash false sp true lv)
            :: [], [leafNodes (lv.take (2*t)) ++ [⟨none, some d0⟩] ++
            [⟨none, some d0⟩]].length, 2*0, false⟩ from rfl]
        rw [hrun]
        rw [hdrop1]
        rw [show rowEmitsFrom true [d0] = [d0, d0] from by simp [rowEmitsFrom]]
        rw [if_neg (by omega)]
        rw [digestsOf_internalNodes, List.drop_zero]
        rw [incEmits_unfold hash sp true
          (createHashesStep hash false sp true lv) (by omega)]
        simp [Except.map, MNode.digest]
    · -- a full pair of leaves remains
      have hr2 : 2 ≤ r := by omega
      have h2t1 : 2 * t + 1 < lv.length := by omega
      obtain ⟨d1, hd1⟩ : ∃ d1, lv[2*t+1]? = some d1 := ⟨_, List.getElem?_eq_getElem h2t1⟩
      have hne : ¬(2*t + 1 = lv.length ∧ lv.length % 2 = 1) := by
        rintro ⟨h, -⟩; omega
      have htake2 : lv.take (2*(t+1)) = lv.take (2*t) ++ [d0, d1] := by
        rw [show 2*(t+1) = 2*t + 2 by ring]
        rw [take_two_more lv (2*t) [] (by omega)]
        rw [List.getD_eq_getElem?_getD, hd0, List.getD_eq_getElem?_getD, hd1]
        rfl
      have hgrow : createHashesStep hash false sp dup (lv.take (2*(t+1))) =
          createHashesStep hash false sp dup (lv.take (2*t)) ++
            [pairHash hash false sp d0 d1] := by
        rw [htake2]
        exact createHashesStep_snoc2 hash sp dup t _ _ _ (by rw [List.length_take]; omega)
      have hleafgrow : leafNodes (lv.take (2*(t+1))) =
          leafNodes (lv.take (2*t)) ++ [⟨none, some d0⟩] ++ [⟨none, some d1⟩] := by
        rw [htake2]
        simp [leafNodes]
      -- step 1: wrap the pair and hash it
      have hstep1 : nextInner hash sp dup ⟨lv, T, 0, 2*t, false⟩ =
          .ok (.res ⟨some (⟨none, some d0⟩, 0, 2*t), false⟩
            ⟨lv, [leafNodes (lv.take (2*(t+1))),
              internalNodes (createHashesStep hash false sp dup (lv.take (2*(t+1))))],
              0, 2*t + 1, false⟩) := by
        rcases hT with ⟨ht0, hTnil⟩ | ⟨ht1, hTP⟩
        · subst hTnil
          subst ht0
          simp only [Nat.mul_zero] at hd0 hd1 ⊢
          have h0 := nextInner_leaf_first hash sp dup lv d0 d1 (by simpa using hne) hd0 hd1
          rw [h0]
          rw [hgrow, hleafgrow]
          simp [leafNodes, internalNodes, createHashesStep]
        · subst hTP
          have h0 := nextInner_leaf_pair hash sp dup lv (leafNodes (lv.take (2*t)))
            (internalNodes (createHashesStep hash false sp dup (lv.take (2*t)))) (2*t) d0 d1
            (by omega) (by simp [leafNodes]; omega) hne hd0 hd1
          rw [h0]
          rw [hgrow, hleafgrow]
          rw [internalNodes_append]
          rfl
      have hXlen : (leafNodes (lv.take (2*t))).length = 2*t := by
        simp only [leafNodes, List.length_map, List.length_take]
        omega
      have hrowlen : (leafNodes (lv.take (2*(t+1)))).length = 2*t + 2 := by
        rw [hleafgrow]
        simp [hXlen]
      have hnd1 : (leafNodes (lv.take (2*(t+1))))[2*t + 1]? =
          some ⟨none, some d1⟩ := by
        rw [hleafgrow]
        rw [List.getElem?_append_right (by simp [hXlen])]
        simp [hXlen]
      obtain ⟨f2, rfl⟩ : ∃ f2, f = f2 + 2 := ⟨f - 2, by omega⟩
      by_cases hr2e : r = 2
      · -- the pair was the last one: `_moveRight` climbs to the finished row 1
        have htakeall : lv.take (2*(t+1)) = lv := List.take_of_length_le (by omega)
        have hstep2 := nextInner_moveRight_end hash sp dup
          ⟨lv, [leafNodes (lv.take (2*(t+1))),
            internalNodes (createHashesStep hash false sp dup (lv.take (2*(t+1))))],
            0, 2*t + 1, false⟩ (leafNodes (lv.take (2*(t+1)))) ⟨none, some d1⟩
          (by show (2*t + 1) % 2 = 1; omega) rfl hnd1
          (by
            show 2*t + 1 = (if (0 : Nat) = 0 then lv.length else
              (leafNodes (lv.take (2*(t+1)))).length) - 1
            rw [if_pos rfl]
            omega)
        rw [htakeall] at hstep1 hstep2
        have hCSlen : (createHashesStep hash false sp dup lv).length = t + 1 := by
          have := createHashesStep_length hash false sp dup lv
          omega
        have hIN : (internalNodes (createHashesStep hash false sp dup lv)).length = t + 1 := by
          rw [internalNodes_length, hCSlen]
        obtain ⟨sF, hrun, hdone⟩ := rowRun hash sp dup (3*(t+1)) (t+1) (t+1) 0 lv
          [leafNodes lv] [] (internalNodes (createHashesStep hash false sp dup lv))
          (by omega) (by simp) hIN (by omega) (by omega) (Or.inl ⟨rfl, rfl⟩)
          (fun k hk _ => internalNodes_internal _ k hk) f2 (by omega)
        refine ⟨sF, ?_, hdone⟩
        rw [show f2 + 2 = (f2 + 1) + 1 from rfl]
        rw [runGo_step hash sp dup _ _ _ _ _ (MerkleNext_res hash sp dup _ _ _ hstep1)]
        rw [runGo_step hash sp dup _ _ _ _ _ (MerkleNext_res hash sp dup _ _ _ hstep2)]
        rw [show (⟨lv, [leafNodes lv,
            internalNodes (createHashesStep hash false sp dup lv)], 0 + 1, 0, false⟩ : IncState) =
          ⟨lv, [leafNodes lv] ++ internalNodes (createHashesStep hash false sp dup lv) :: [],
            [leafNodes lv].length, 2*0, false⟩ from by simp]
        rw [hrun]
        have hdrop2 : lv.drop (2*t) = [d0, d1] := by
          rw [List.drop_eq_getElem_cons (by omega : 2*t < lv.length)]
          rw [List.drop_eq_getElem_cons (by omega : 2*t + 1 < lv.length)]
          rw [getElem_of_getElem? (by omega) hd0, getElem_of_getElem? (by omega) hd1]
          rw [List.drop_eq_nil_of_le (by omega)]
        simp only [Except.map]
        rw [hdrop2]
        rw [show rowEmitsFrom dup [d0, d1] = [d0, d1] from by simp [rowEmitsFrom]]
        rw [digestsOf_internalNodes, List.drop_zero]
        rcases Nat.eq_zero_or_pos t with ht0 | htpos
        · subst ht0
          rw [if_pos rfl]
          cases hCS : createHashesStep hash false sp dup lv with
          | nil => rw [hCS] at hCSlen; simp at hCSlen
          | cons c cs =>
            cases cs with
            | nil => simp [incEmitsGo_single, MNode.digest]
            | cons c2 cs2 => rw [hCS] at hCSlen; simp at hCSlen
        · rw [if_neg (by omega)]
          rw [incEmits_unfold hash sp dup (createHashesStep hash false sp dup lv) (by omega)]
          rfl
      · -- more leaf pairs follow
        have hr3 : 3 ≤ r := by omega
        have hstep2 := nextInner_moveRight_mid hash sp dup
          ⟨lv, [leafNodes (lv.take (2*(t+1))),
            internalNodes (createHashesStep hash false sp dup (lv.take (2*(t+1))))],
            0, 2*t + 1, false⟩ (leafNodes (lv.take (2*(t+1)))) ⟨none, some d1⟩
          (by show (2*t + 1) % 2 = 1; omega) rfl hnd1
          (by
            show 2*t + 1 ≠ (if (0 : Nat) = 0 then lv.length else
              (leafNodes (lv.take (2*(t+1)))).length) - 1
            rw [if_pos rfl]
            omega)
        obtain ⟨sF, hrun, hdone⟩ := ihK (r-2) (t+1) lv (by omega) (by omega) (by omega) hn2
          [leafNodes (lv.take (2*(t+1))),
            internalNodes (createHashesStep hash false sp dup (lv.take (2*(t+1))))]
          (Or.inr ⟨by omega, rfl⟩) f2 (by omega)
        refine ⟨sF, ?_, hdone⟩
        rw [show f2 + 2 = (f2 + 1) + 1 from rfl]
        rw [runGo_step hash sp dup _ _ _ _ _ (MerkleNext_res hash sp dup _ _ _ hstep1)]
        rw [runGo_step hash sp dup _ _ _ _ _ (MerkleNext_res hash sp dup _ _ _ hstep2)]
        rw [show (⟨lv, [leafNodes (lv.take (2*(t+1))),
            internalNodes (createHashesStep hash false sp dup (lv.take (2*(t+1))))],
            0, 2*t + 1 + 1, false⟩ : IncState) =
          ⟨lv, [leafNodes (lv.take (2*(t+1))),
            internalNodes (createHashesStep hash false sp dup (lv.take (2*(t+1))))],
            0, 2*(t+1), false⟩ from rfl]
        rw [hrun]
        have hdropD : lv.drop (2*t) = d0 :: d1 :: lv.drop (2*(t+1)) := by
          rw [List.drop_eq_getElem_cons (by omega : 2*t < lv.length)]
          rw [List.drop_eq_getElem_cons (by omega : 2*t + 1 < lv.length)]
          rw [getElem_of_getElem? (by omega) hd0, getElem_of_getElem? (by omega) hd1]
          rw [show 2*(t+1) = 2*t + 1 + 1 by ring]
        simp only [Except.map]
        rw [hdropD, rowEmitsFrom_cons2 dup _ _ _ (by
          rw [← List.length_pos, List.length_drop]
          omega)]
        rfl

theorem runIncremental_spec (hash : Buf → Buf) (sp dup : Bool) (lv : List Buf)
    (h2 : 2 ≤ lv.length) :
    ∃ sF, runIncremental hash sp dup lv =
        .ok (incEmitsGo hash sp dup lv.length lv, sF) ∧
      MerkleNext hash sp dup sF = .ok (⟨none, true⟩, sF) := by
  obtain ⟨sF, hrun, hdone⟩ := leafRun hash sp dup lv.length lv.length 0 lv
    (le_refl _) (by omega) (by omega) h2 [] (Or.inl ⟨rfl, rfl⟩)
    (6 * lv.length + 6) (by omega)
  refine ⟨sF, ?_, hdone⟩
  rw [runIncremental]
  rw [show (⟨lv, [], 0, 0, false⟩ : IncState) = ⟨lv, [], 0, 2*0, false⟩ from rfl]
  rw [hrun]
  rw [show (2 : Nat) * 0 = 0 from rfl, List.drop_zero]
  rw [← incEmits_unfold hash sp dup lv h2]




/-- C1: with the flags `next` actually reads (`sortPairs`, `duplicateOdd`) and
at least two leaves, the incremental builder emits, as its last node, the
eager builder's root. -/
theorem claim_C1 (hash : Buf → Buf) (sp dup : Bool) (lv : List Buf)
    (h2 : 2 ≤ lv.length) :
    ∃ sF emits, runIncremental hash sp dup lv = .ok (emits, sF) ∧
      emits.getLast? = some (MerkleTree.getRoot hash
        { sortPairs := sp, duplicateOdd := dup } lv) := by
  obtain ⟨sF, hrun, -⟩ := runIncremental_spec hash sp dup lv h2
  refine ⟨sF, _, hrun, ?_⟩
  rw [incEmitsGo_getLast hash sp dup lv.length lv
    (by intro h; rw [h] at h2; simp at h2) (le_refl _)]
  rw [MerkleTree.getRoot, MerkleTree.layers, MerkleTree.leavesOf, createHashesLayers]
  simp [MerkleTree.MTOptions.effSortPairs, MerkleTree.MTOptions.effSortLeaves]

theorem claim_C1_witness :
    2 ≤ ([[1], [2], [3]] : List Buf).length ∧
      (∃ sF emits, runIncremental toyHash true false [[1], [2], [3]] = .ok (emits, sF) ∧
        emits.getLast? = some (MerkleTree.getRoot toyHash
          { sortPairs := true, duplicateOdd := false } [[1], [2], [3]])) :=
  ⟨by decide, claim_C1 toyHash true false [[1], [2], [3]] (by decide)⟩

theorem claim_C1_counterexample :
    (runIncremental toyHash false false [[1], [2]]).map (fun p => p.1.getLast?) =
      .ok (some ([2, 10] : Buf)) ∧
    MerkleTree.getRoot toyHash { isBitcoinTree := true } [[1], [2]] = ([19, 2] : Buf) ∧
    ([2, 10] : Buf) ≠ [19, 2] := by
  decide

/-- C8: under the promotion policy with at least two leaves the iterator
makes exactly `2·n − 1` node-valued steps for every `n`, the root is the last
emission, and afterwards `next` keeps reporting `done` on an unchanged
state. -/
theorem claim_C8 (hash : Buf → Buf) (sp : Bool) (lv : List Buf)
    (h2 : 2 ≤ lv.length) :
    ∃ sF emits, runIncremental hash sp false lv = .ok (emits, sF) ∧
      emits.length = 2 * lv.length - 1 ∧
      emits.getLast? = some (MerkleTree.getRoot hash { sortPairs := sp } lv) ∧
      MerkleNext hash sp false sF = .ok (⟨none, true⟩, sF) := by
  obtain ⟨sF, hrun, hdone⟩ := runIncremental_spec hash sp false lv h2
  refine ⟨sF, _, hrun, ?_, ?_, hdone⟩
  · exact incEmitsGo_length_default hash sp lv.length lv (by omega) (le_refl _)
  · rw [incEmitsGo_getLast hash sp false lv.length lv
      (by intro h; rw [h] at h2; simp at h2) (le_refl _)]
    rw [MerkleTree.getRoot, MerkleTree.layers, MerkleTree.leavesOf, createHashesLayers]
    simp [MerkleTree.MTOptions.effSortPairs, MerkleTree.MTOptions.effSortLeaves]

theorem claim_C8_witness :
    2 ≤ ([[1], [2], [3]] : List Buf).length ∧
      (∃ sF emits, runIncremental toyHash false false [[1], [2], [3]] = .ok (emits, sF) ∧
        emits.length = 2 * ([[1], [2], [3]] : List Buf).length - 1 ∧
        emits.getLast? = some (MerkleTree.getRoot toyHash {} [[1], [2], [3]]) ∧
        MerkleNext toyHash false false sF = .ok (⟨none, true⟩, sF)) :=
  ⟨by decide, claim_C8 toyHash false [[1], [2], [3]] (by decide)⟩

theorem claim_C8_counterexample :
    runIncremental toyHash false false [[1]] = .error () ∧
    (runIncremental toyHash false false [[1], [2], [3]]).map (fun p => p.1.length) =
      .ok 5 ∧
    (5 : Nat) ≠ 2 * 3 - 1 - 1 := by
  decide
